import Mathlib

/-!
A verification development for the progsnap2 converters
(`converters/blockpy_to_progsnap2.py` and `converters/vpl_to_progsnap2.py`).

The Python sources are shallowly embedded below: the code-state store
(`ProgSnap2.code_files` / `hash_code_directory` / `log_code_state`), the
event record (`Event`), the classification function
(`map_blockpy_event_to_progsnap`), the record mapper (`log_blockpy_event`),
the finalization pipeline (`ProgSnap2.finalize_table`) and the main-table
export (`Event.finalize` / `ProgSnap2.export_main_table`).

Conventions used in the embedding:
* Python dictionaries keyed by `(SubjectID, AssignmentID)` are embedded as
  association lists with lookup `dget`, destructive update `dset` and
  deletion `ddel`.
* Python `None` becomes `Option.none`.
* Exceptions (`UnclassifiedEventType`, `ValueError` from `int(...)`, the
  `NameError` caused by the unbound name `zipped`) become `Except.error`.
* `list.sort(key=...)`, a stable sort, is embedded as Mathlib's
  `List.insertionSort` (a stable sort) over the decidable total preorder
  given by the Python sort key.
-/

namespace PS2

/-- `ARBITRARY_EVENT_ORDER` from `blockpy_to_progsnap2.py`. -/
def ARBITRARY_EVENT_ORDER : List String :=
  ["Session.Start", "X-File.Upload", "File.Edit", "Submit", "Compile",
   "Run.Program", "Compile.Error", "Feedback.Grade", "Intervention"]

/-- `ARBITRARY_COLUMN_ORDER` from `blockpy_to_progsnap2.py`. -/
def ARBITRARY_COLUMN_ORDER : List String :=
  ["EventID", "Order", "SubjectID", "AssignmentID", "CourseID",
   "EventType", "CodeStateID", "ParentEventID", "ClientTimestamp", "Score",
   "EditType", "CompileMessageType", "CompileMessageData", "SourceLocation",
   "ExecutionResult", "ProgramErrorOutput", "InterventionType",
   "InterventionMessage", "ServerTimestamp", "ToolInstances"]

/-- `BLOCKPY_INSTANCE` from `blockpy_to_progsnap2.py`. -/
def BLOCKPY_INSTANCE : String := "BPY4"

/-- A code-state content value: either a raw string (single-file
submission) or a canonicalized tuple of `(filename, contents)` pairs
(multi-file submission).  This is the key type of
`ProgSnap2.code_files`. -/
inductive Content where
  | str (s : String)
  | dir (files : List (String × String))
deriving DecidableEq

/-- The code-state store of the blockpy `ProgSnap2` class: the
`code_files` dictionary mapping contents to integer ids, and the
auto-incrementing `CODE_ID` counter. -/
structure Store where
  code_files : List (Content × Nat)
  CODE_ID : Nat
deriving DecidableEq

/-- `ProgSnap2.__init__`: `self.code_files = {'': 0}; self.CODE_ID = 1`. -/
def Store.init : Store := ⟨[(.str "", 0)], 1⟩

/-- Dictionary lookup on the store's association list. -/
def slookup (m : List (Content × Nat)) (c : Content) : Option Nat :=
  (m.find? (fun kv => decide (kv.1 = c))).map (fun kv => kv.2)

/-- `ProgSnap2.hash_code_directory` (blockpy converter, lines 467-487;
the vpl converter's copy at lines 325-345 is identical): look the
content up in `code_files`; if present return the existing id, otherwise
assign `CODE_ID`, store it, and increment `CODE_ID`. -/
def hash_code_directory (st : Store) (code : Content) : Nat × Store :=
  match slookup st.code_files code with
  | some CodeStateID => (CodeStateID, st)
  | none => (st.CODE_ID, ⟨st.code_files ++ [(code, st.CODE_ID)], st.CODE_ID + 1⟩)

/-- The submission argument of `ProgSnap2.log_code_state`: either the raw
string of the code, or a dictionary mapping local filenames to their
absolute paths in the zip file. -/
inductive Submission where
  | raw (s : String)
  | files (m : List (String × String))
deriving DecidableEq

/-- The runtime failures of the embedded code. -/
inductive PyError where
  | nameError (n : String)
  | valueError (s : String)
  | unclassifiedEventType (event action body : String)
deriving DecidableEq

/-- `ProgSnap2.log_code_state` (blockpy converter, lines 443-465).  A raw
string is hashed as-is.  In the multi-file branch the Python loop body
evaluates the name `zipped`, which is unbound in that scope (it is
neither a parameter nor a module-level name), so iterating a non-empty
mapping raises `NameError`; with an empty mapping the loop body never
runs and the empty tuple is hashed. -/
def log_code_state (st : Store) (submission : Submission) :
    Except PyError (Nat × Store) :=
  match submission with
  | .raw s => .ok (hash_code_directory st (.str s))
  | .files [] => .ok (hash_code_directory st (.dir []))
  | .files (_ :: _) => .error (.nameError "zipped")

/-- A state reachable from `Store.init` by some sequence of
`hash_code_directory` registrations: the states that can arise within
one conversion run. -/
def Store.Reachable (s : Store) : Prop :=
  ∃ cs : List Content,
    s = cs.foldl (fun st c => (hash_code_directory st c).2) Store.init

/-- Well-formedness invariant of the store: the ids stored in
`code_files`, in insertion order, are exactly `0, 1, ..., CODE_ID - 1`,
and the empty-string sentinel is mapped to `0`. -/
def Store.WF (s : Store) : Prop :=
  s.code_files.map (fun kv => kv.2) = List.range s.CODE_ID ∧
    (s.code_files.map (fun kv => kv.1)).Nodup ∧
    slookup s.code_files (.str "") = some 0

theorem store_init_wf : Store.WF Store.init := by
  refine ⟨rfl, by decide, rfl⟩

theorem slookup_none_not_mem {m : List (Content × Nat)} {c : Content}
    (h : slookup m c = none) : ∀ kv ∈ m, kv.1 ≠ c := by
  intro kv hkv
  unfold slookup at h
  rw [Option.map_eq_none', List.find?_eq_none] at h
  simpa using h kv hkv

theorem slookup_mem {m : List (Content × Nat)} {c : Content} {v : Nat}
    (h : slookup m c = some v) : (c, v) ∈ m := by
  unfold slookup at h
  rw [Option.map_eq_some'] at h
  obtain ⟨kv, hfind, hv⟩ := h
  have hmem := List.mem_of_find?_eq_some hfind
  have hp := List.find?_some hfind
  simp only [decide_eq_true_eq] at hp
  obtain ⟨a, b⟩ := kv
  simp only at hp hv
  subst hp; subst hv; exact hmem

theorem slookup_append_other {m : List (Content × Nat)} {c c2 : Content}
    {v : Nat} (h : c2 ≠ c) :
    slookup (m ++ [(c2, v)]) c = slookup m c := by
  unfold slookup
  rw [List.find?_append]
  cases hf : m.find? (fun kv => decide (kv.1 = c)) with
  | some kv => simp
  | none => simp [List.find?, h]

theorem slookup_append_self {m : List (Content × Nat)} {c : Content} {v : Nat}
    (h : slookup m c = none) :
    slookup (m ++ [(c, v)]) c = some v := by
  unfold slookup at h ⊢
  rw [List.find?_append]
  rw [Option.map_eq_none'] at h
  simp [h, List.find?]

theorem hash_preserves_wf {s : Store} (hwf : s.WF) (c : Content) :
    (hash_code_directory s c).2.WF := by
  obtain ⟨hrange, hnodup, hzero⟩ := hwf
  unfold hash_code_directory
  cases hl : slookup s.code_files c with
  | some v => exact ⟨hrange, hnodup, hzero⟩
  | none =>
    refine ⟨?_, ?_, ?_⟩
    · simp only [List.map_append, hrange, List.map_cons, List.map_nil,
        List.range_succ]
    · simp only [List.map_append, List.map_cons, List.map_nil]
      rw [List.nodup_append]
      refine ⟨hnodup, List.nodup_singleton _, ?_⟩
      intro a ha
      simp only [List.mem_singleton]
      intro hac
      subst hac
      have := slookup_none_not_mem hl
      simp only [List.mem_map] at ha
      obtain ⟨kv, hkv, hkv1⟩ := ha
      exact this kv hkv hkv1
    · have hne : c ≠ Content.str "" := by
        intro hc; subst hc; rw [hzero] at hl; exact Option.noConfusion hl
      rw [slookup_append_other hne]
      exact hzero

theorem reachable_wf {s : Store} (h : s.Reachable) : s.WF := by
  obtain ⟨cs, hcs⟩ := h
  subst hcs
  induction cs using List.reverseRecOn with
  | nil => exact store_init_wf
  | append_singleton cs c ih =>
    rw [List.foldl_append, List.foldl_cons, List.foldl_nil]
    exact hash_preserves_wf ih c

theorem wf_lookup_lt {s : Store} (hwf : s.WF) {c : Content} {v : Nat}
    (h : slookup s.code_files c = some v) : v < s.CODE_ID := by
  obtain ⟨hrange, _, _⟩ := hwf
  have hmem := slookup_mem h
  have : v ∈ s.code_files.map (fun kv => kv.2) :=
    List.mem_map.mpr ⟨(c, v), hmem, rfl⟩
  rw [hrange, List.mem_range] at this
  exact this

theorem wf_lookup_inj {s : Store} (hwf : s.WF) {c c2 : Content} {v : Nat}
    (h1 : slookup s.code_files c = some v)
    (h2 : slookup s.code_files c2 = some v) : c = c2 := by
  obtain ⟨hrange, hnodup, _⟩ := hwf
  have m1 := slookup_mem h1
  have m2 := slookup_mem h2
  -- the id column has no duplicates, so the same id determines the row
  have hvals : (s.code_files.map (fun kv => kv.2)).Nodup := by
    rw [hrange]; exact List.nodup_range _
  have := List.inj_on_of_nodup_map hvals m1 m2 rfl
  exact congrArg Prod.fst this

/-- C1, main theorem (see `C1_code_state_dedup`): registration behaviour
of the content-addressed store on any state reachable within one run. -/
theorem hash_lookup_found {s : Store} {c : Content} {v : Nat}
    (h : slookup s.code_files c = some v) :
    hash_code_directory s c = (v, s) := by
  unfold hash_code_directory
  rw [h]

theorem hash_lookup_fresh {s : Store} {c : Content}
    (h : slookup s.code_files c = none) :
    hash_code_directory s c =
      (s.CODE_ID, ⟨s.code_files ++ [(c, s.CODE_ID)], s.CODE_ID + 1⟩) := by
  unfold hash_code_directory
  rw [h]

theorem hash_result_lookup {s : Store} (c : Content) :
    slookup (hash_code_directory s c).2.code_files c =
      some (hash_code_directory s c).1 := by
  unfold hash_code_directory
  cases hl : slookup s.code_files c with
  | some v => exact hl
  | none => exact slookup_append_self hl

theorem reachable_hash {s : Store} (h : s.Reachable) (c : Content) :
    (hash_code_directory s c).2.Reachable := by
  obtain ⟨cs, hcs⟩ := h
  exact ⟨cs ++ [c], by rw [List.foldl_append, List.foldl_cons, List.foldl_nil, hcs]⟩

theorem lookup_some_hash_id {s : Store} {c : Content} {v : Nat}
    (h : slookup s.code_files c = some v) : (hash_code_directory s c).1 = v := by
  rw [hash_lookup_found h]

/-- C1: code-state registration is deterministic and content-addressed:
within one run (any reachable store state), registering the same content
twice returns the same id and leaves the store unchanged, registering a
distinct content returns a distinct id, a not-yet-seen content is
assigned the current value of the `CODE_ID` counter, which is strictly
larger than every id already in use (ids are handed out `1, 2, ...` in
order of first appearance), and the initial store pre-maps the
empty-content sentinel to id `0` with the counter starting at `1`.
The store is keyed by content only — no subject or assignment enters
`hash_code_directory` — so content-addressing is global. -/
theorem C1_code_state_dedup (s : Store) (c c2 : Content)
    (hs : s.Reachable) (hne : c ≠ c2) :
    (hash_code_directory (hash_code_directory s c).2 c).1 =
        (hash_code_directory s c).1 ∧
      (hash_code_directory (hash_code_directory s c).2 c).2 =
        (hash_code_directory s c).2 ∧
      (hash_code_directory (hash_code_directory s c).2 c2).1 ≠
        (hash_code_directory s c).1 ∧
      (slookup s.code_files c = none →
        (hash_code_directory s c).1 = s.CODE_ID ∧
          ∀ v ∈ s.code_files.map (fun kv => kv.2), v < s.CODE_ID) ∧
      slookup Store.init.code_files (.str "") = some 0 ∧
      Store.init.CODE_ID = 1 := by
  have hwf : s.WF := reachable_wf hs
  have hwf1 : (hash_code_directory s c).2.WF :=
    reachable_wf (reachable_hash hs c)
  have hsecond := hash_lookup_found (hash_result_lookup (s := s) c)
  refine ⟨by rw [hsecond], by rw [hsecond], ?_, ?_, rfl, rfl⟩
  · -- distinct contents receive distinct ids
    set s1 := (hash_code_directory s c).2 with hs1
    set id1 := (hash_code_directory s c).1 with hid1
    have hlook1 : slookup s1.code_files c = some id1 := hash_result_lookup c
    cases hl2 : slookup s1.code_files c2 with
    | some v =>
      rw [lookup_some_hash_id hl2]
      intro hv
      subst hv
      exact hne (wf_lookup_inj hwf1 hlook1 hl2)
    | none =>
      rw [hash_lookup_fresh hl2]
      have := wf_lookup_lt hwf1 hlook1
      omega
  · intro hfresh
    rw [hash_lookup_fresh hfresh]
    refine ⟨rfl, ?_⟩
    intro v hv
    obtain ⟨hrange, _, _⟩ := hwf
    rw [hrange, List.mem_range] at hv
    exact hv

theorem C1_code_state_dedup_witness :
    (hash_code_directory (hash_code_directory Store.init (.str "a")).2
        (.str "a")).1 = (hash_code_directory Store.init (.str "a")).1 ∧
      (hash_code_directory (hash_code_directory Store.init (.str "a")).2
        (.str "b")).1 ≠ (hash_code_directory Store.init (.str "a")).1 :=
  ⟨(C1_code_state_dedup Store.init (.str "a") (.str "b") ⟨[], rfl⟩
      (by decide)).1,
   (C1_code_state_dedup Store.init (.str "a") (.str "b") ⟨[], rfl⟩
      (by decide)).2.2.1⟩

/-- C10, counterexample: `log_code_state` does NOT fail on every
non-string submission — the empty mapping skips the loop body (so the
unbound name `zipped` is never evaluated) and successfully registers the
empty tuple, receiving id 1. -/
theorem C10_empty_mapping_succeeds :
    log_code_state Store.init (Submission.files []) =
      Except.ok (1, ⟨[(Content.str "", 0), (Content.dir [], 1)], 2⟩) := by
  rfl

/-- C10, amended: for every NON-EMPTY mapping submission,
`ProgSnap2.log_code_state` in the blockpy converter fails with an
unbound-name error on `zipped`; raw-string submissions (and the empty
mapping, which never evaluates `zipped`) are registered successfully. -/
theorem C10_nonempty_files_name_error (st : Store)
    (m : List (String × String)) (h : m ≠ []) :
    log_code_state st (.files m) = .error (.nameError "zipped") ∧
      (∀ s, log_code_state st (.raw s) =
        .ok (hash_code_directory st (.str s))) ∧
      log_code_state st (.files []) =
        .ok (hash_code_directory st (.dir [])) := by
  refine ⟨?_, fun s => rfl, rfl⟩
  cases m with
  | nil => exact absurd rfl h
  | cons a l => rfl

theorem C10_nonempty_files_name_error_witness :
    ([(("a.py" : String), ("code/a.py" : String))] ≠
        ([] : List (String × String))) ∧
      log_code_state Store.init (.files [("a.py", "code/a.py")]) =
        .error (.nameError "zipped") :=
  ⟨by decide,
   (C10_nonempty_files_name_error Store.init [("a.py", "code/a.py")]
      (by decide)).1⟩

/-- A CSV cell value: the Python values flowing into a row are strings,
integers, or `None`. -/
inductive Val where
  | s (v : String)
  | n (v : Int)
  | null
deriving DecidableEq

/-- The blockpy `Event` class (lines 71-142).  Attributes always set by
`__init__`: `ClientTimestamp`, `ServerTimestamp`, `SubjectID`,
`AssignmentID`, `EventType`, `CodeStateID`, `Score`, `ToolInstances`
(a constant), `EventID`, and `Order` (initially `None`).
`ParentEventIDAttr` models the Python attribute `ParentEventID`, which
exists only after the Compile-linking pass assigns it (`Option.none`
means the attribute is absent, so `hasattr` is false); a `ParentEventID`
passed as a keyword argument lives in `extras` instead.
`extras` is `_optional_parameters`, the keyword-argument bag. -/
structure Event where
  EventID : Nat
  ClientTimestamp : String
  ServerTimestamp : String
  SubjectID : String
  AssignmentID : String
  EventType : String
  CodeStateID : Option Nat
  Score : Option Int
  ParentEventIDAttr : Option Int := none
  Order : Option Nat := none
  extras : List (String × Val) := []
deriving DecidableEq

/-- The `(SubjectID, AssignmentID)` partition identifier used by every
pass of `finalize_table`. -/
abbrev Ident := String × String

def identOf (e : Event) : Ident := (e.SubjectID, e.AssignmentID)

/-- Association-list lookup for the `(SubjectID, AssignmentID)`-keyed
dictionaries of `finalize_table`. -/
def dget {α : Type} (m : List (Ident × α)) (k : Ident) : Option α :=
  (m.find? (fun kv => decide (kv.1 = k))).map (fun kv => kv.2)

/-- Dictionary assignment `d[k] = v`. -/
def dset {α : Type} (m : List (Ident × α)) (k : Ident) (v : α) :
    List (Ident × α) :=
  (k, v) :: m.filter (fun kv => !(decide (kv.1 = k)))

/-- Dictionary deletion `del d[k]`. -/
def ddel {α : Type} (m : List (Ident × α)) (k : Ident) : List (Ident × α) :=
  m.filter (fun kv => !(decide (kv.1 = k)))

theorem dget_dset_self {α : Type} (m : List (Ident × α)) (k : Ident) (v : α) :
    dget (dset m k v) k = some v := by
  simp [dget, dset, List.find?]

theorem dget_dset_ne {α : Type} (m : List (Ident × α)) {k k2 : Ident} (v : α)
    (h : k2 ≠ k) : dget (dset m k v) k2 = dget m k2 := by
  simp only [dget, dset, List.find?]
  rw [decide_eq_false (by simpa using Ne.symm h)]
  simp only [Bool.false_eq_true, if_false]
  congr 1
  induction m with
  | nil => rfl
  | cons kv m ih =>
    by_cases hk : kv.1 = k
    · subst hk
      simp only [List.filter, decide_True, Bool.not_true]
      rw [List.find?]
      rw [decide_eq_false (by simpa using h.symm)]
      exact ih
    · simp only [List.filter, decide_eq_false hk, Bool.not_false]
      rw [List.find?, List.find?]
      cases hd : decide (kv.1 = k2) with
      | false => simpa [hd] using ih
      | true => simp [hd]

theorem dget_ddel_self {α : Type} (m : List (Ident × α)) (k : Ident) :
    dget (ddel m k) k = none := by
  simp only [dget, Option.map_eq_none', List.find?_eq_none, ddel]
  intro kv hkv
  rw [List.mem_filter] at hkv
  simpa using hkv.2

theorem dget_ddel_ne {α : Type} (m : List (Ident × α)) {k k2 : Ident}
    (h : k2 ≠ k) : dget (ddel m k) k2 = dget m k2 := by
  simp only [dget, ddel]
  congr 1
  induction m with
  | nil => rfl
  | cons kv m ih =>
    by_cases hk : kv.1 = k
    · subst hk
      simp only [List.filter, decide_True, Bool.not_true]
      rw [List.find?]
      rw [decide_eq_false (by simpa using h.symm)]
      exact ih
    · simp only [List.filter, decide_eq_false hk, Bool.not_false]
      rw [List.find?, List.find?]
      cases hd : decide (kv.1 = k2) with
      | false => simpa [hd] using ih
      | true => simp [hd]

/-- Lexicographic comparison of character lists: this is how Python
compares the timestamp strings in the sort key (code-point order). -/
def charsLe : List Char → List Char → Bool
  | [], _ => true
  | _ :: _, [] => false
  | c :: cs, d :: ds => if c < d then true else if d < c then false else charsLe cs ds

theorem charsLe_refl (a : List Char) : charsLe a a = true := by
  induction a with
  | nil => rfl
  | cons c cs ih => simp [charsLe, ih]

theorem charsLe_total (a b : List Char) :
    charsLe a b = true ∨ charsLe b a = true := by
  induction a generalizing b with
  | nil => left; rfl
  | cons c cs ih =>
    cases b with
    | nil => right; rfl
    | cons d ds =>
      rcases lt_trichotomy c d with h | h | h
      · left; simp [charsLe, h]
      · subst h
        rcases ih ds with h2 | h2
        · left; simp [charsLe, lt_irrefl, h2]
        · right; simp [charsLe, lt_irrefl, h2]
      · right; simp [charsLe, h]

theorem charsLe_antisymm {a b : List Char} (h1 : charsLe a b = true)
    (h2 : charsLe b a = true) : a = b := by
  induction a generalizing b with
  | nil =>
    cases b with
    | nil => rfl
    | cons d ds => exact absurd h2 (by simp [charsLe])
  | cons c cs ih =>
    cases b with
    | nil => exact absurd h1 (by simp [charsLe])
    | cons d ds =>
      rcases lt_trichotomy c d with h | h | h
      · rw [charsLe, if_neg (asymm h), if_pos h] at h2
        exact absurd h2 (by simp)
      · subst h
        rw [charsLe, if_neg (lt_irrefl c), if_neg (lt_irrefl c)] at h1 h2
        rw [ih h1 h2]

      · rw [charsLe, if_neg (asymm h), if_pos h] at h1
        exact absurd h1 (by simp)

theorem charsLe_trans {a b c : List Char} (h1 : charsLe a b = true)
    (h2 : charsLe b c = true) : charsLe a c = true := by
  induction a generalizing b c with
  | nil => rfl
  | cons x xs ih =>
    cases b with
    | nil => exact absurd h1 (by simp [charsLe])
    | cons y ys =>
      cases c with
      | nil => exact absurd h2 (by simp [charsLe])
      | cons z zs =>
        rcases lt_trichotomy x y with hxy | hxy | hxy
        · rcases lt_trichotomy y z with hyz | hyz | hyz
          · simp [charsLe, lt_trans hxy hyz]
          · subst hyz; simp [charsLe, hxy]
          · rw [charsLe, if_neg (asymm hyz), if_pos hyz] at h2
            exact absurd h2 (by simp)
        · subst hxy
          rw [charsLe, if_neg (lt_irrefl x), if_neg (lt_irrefl x)] at h1
          rcases lt_trichotomy x z with hyz | hyz | hyz
          · simp [charsLe, hyz]
          · subst hyz
            rw [charsLe, if_neg (lt_irrefl x), if_neg (lt_irrefl x)] at h2 ⊢
            exact ih h1 h2
          · rw [charsLe, if_neg (asymm hyz), if_pos hyz] at h2
            exact absurd h2 (by simp)
        · rw [charsLe, if_neg (asymm hxy), if_pos hxy] at h1
          exact absurd h1 (by simp)

/-- `Event.get_order` (blockpy converter, lines 164-175): the sort key is
the pair `(ClientTimestamp, ARBITRARY_EVENT_ORDER.index(EventType))`;
`list.index` raises `ValueError` on a missing element, which the method
catches to return `len(ARBITRARY_EVENT_ORDER)` — exactly
`List.indexOf`'s behaviour.  The timestamp string is compared in
code-point order. -/
def get_order (e : Event) : List Char × Nat :=
  (e.ClientTimestamp.data, ARBITRARY_EVENT_ORDER.indexOf e.EventType)

/-- Python tuple comparison of two sort keys. -/
def keyLe (x y : List Char × Nat) : Bool :=
  if x.1 = y.1 then decide (x.2 ≤ y.2) else charsLe x.1 y.1

/-- The sort relation `Event.get_order(a) <= Event.get_order(b)`. -/
def eventLe (a b : Event) : Prop := keyLe (get_order a) (get_order b) = true

instance : DecidableRel eventLe := fun a b => by
  unfold eventLe; infer_instance

theorem keyLe_total (x y : List Char × Nat) :
    keyLe x y = true ∨ keyLe y x = true := by
  unfold keyLe
  by_cases h : x.1 = y.1
  · rw [if_pos h, if_pos h.symm]
    simp only [decide_eq_true_eq]
    omega
  · rw [if_neg h, if_neg (Ne.symm h)]
    exact charsLe_total x.1 y.1

theorem keyLe_trans {x y z : List Char × Nat} (h1 : keyLe x y = true)
    (h2 : keyLe y z = true) : keyLe x z = true := by
  unfold keyLe at h1 h2 ⊢
  by_cases hxy : x.1 = y.1 <;> by_cases hyz : y.1 = z.1
  · rw [if_pos hxy] at h1
    rw [if_pos hyz] at h2
    rw [if_pos (hxy.trans hyz)]
    simp only [decide_eq_true_eq] at h1 h2 ⊢
    omega
  · rw [if_neg hyz] at h2
    rw [if_neg (hxy ▸ hyz), hxy]
    exact h2
  · rw [if_neg hxy] at h1
    rw [if_neg (hyz ▸ hxy), ← hyz]
    exact h1
  · rw [if_neg hxy] at h1
    rw [if_neg hyz] at h2
    by_cases hxz : x.1 = z.1
    · rw [← hxz] at h2
      exact absurd (charsLe_antisymm h1 h2) hxy
    · rw [if_neg hxz]
      exact charsLe_trans h1 h2

instance : IsTotal Event eventLe :=
  ⟨fun a b => keyLe_total (get_order a) (get_order b)⟩

instance : IsTrans Event eventLe :=
  ⟨fun _ _ _ h1 h2 => keyLe_trans h1 h2⟩

/-- `self.main_table.sort(key=Event.get_order)` — a stable sort by the
`get_order` key, embedded as insertion sort (which is stable). -/
def sortTable (t : List Event) : List Event := t.insertionSort eventLe

/-- The upload-remapping scan of `finalize_table` (lines 339-353).
`pending` is the `remapped_uploads` dictionary, holding, per
`(SubjectID, AssignmentID)`, the position of the most recent unmatched
`X-File.Upload` event; `i` is the position of the next event.  An
`X-File.Upload` overwrites the partition's marker; a `File.Edit` with a
live marker emits the patch "set the marked upload's `CodeStateID` to
this edit's `CodeStateID`" and deletes the marker.  The returned list
collects the patches `(position, new CodeStateID)`. -/
def remapScanAux : Nat → List (Ident × Nat) → List Event →
    List (Nat × Option Nat)
  | _, _, [] => []
  | i, pending, e :: rest =>
    if e.EventType = "X-File.Upload" then
      remapScanAux (i + 1) (dset pending (identOf e) i) rest
    else if e.EventType = "File.Edit" then
      match dget pending (identOf e) with
      | some j => (j, e.CodeStateID) :: remapScanAux (i + 1) (ddel pending (identOf e)) rest
      | none => remapScanAux (i + 1) pending rest
    else remapScanAux (i + 1) pending rest

def lookupPatch (updates : List (Nat × Option Nat)) (i : Nat) :
    Option (Option Nat) :=
  (updates.find? (fun kv => decide (kv.1 = i))).map (fun kv => kv.2)

/-- The upload-remapping pass: the Python loop mutates the marked upload
events in place; here the patches collected by the scan are applied to
the table positionally. -/
def remapUploads (t : List Event) : List Event :=
  t.enum.map (fun p =>
    match lookupPatch (remapScanAux 0 [] t) p.1 with
    | some c => { p.2 with CodeStateID := c }
    | none => p.2)

/-- Is this event an `X-File.Upload` or a `File.Edit`?  (The two event
types that interact with the `remapped_uploads` marker.) -/
def uoe (e : Event) : Bool :=
  decide (e.EventType = "X-File.Upload") || decide (e.EventType = "File.Edit")

/-- The first upload-or-edit event of partition `p` in `t`. -/
def nextUoE (p : Ident) (t : List Event) : Option Event :=
  t.find? (fun x => decide (identOf x = p) && uoe x)

/-- If the next upload-or-edit exists and is an edit, yield its
`CodeStateID` as a patch. -/
def resolveUoE (o : Option Event) : Option (Option Nat) :=
  match o with
  | some e2 => if e2.EventType = "File.Edit" then some e2.CodeStateID else none
  | none => none

/-- Declarative description of the patch the remap pass applies to one
event, given the events after it: an upload whose next same-partition
upload-or-edit is an edit gets that edit's `CodeStateID`; everything
else is untouched. -/
def expectedPatch (e : Event) (after : List Event) : Option (Option Nat) :=
  if e.EventType = "X-File.Upload" then resolveUoE (nextUoE (identOf e) after)
  else none

/-- Applying a patch option to an event. -/
def applyPatch (e : Event) (o : Option (Option Nat)) : Event :=
  match o with
  | some c => { e with CodeStateID := c }
  | none => e

/-- Recursive form of the remap pass (proved equal to `remapUploads`
in `remapUploads_eq_remapRec`). -/
def remapRec : List Event → List Event
  | [] => []
  | e :: rest => applyPatch e (expectedPatch e rest) :: remapRec rest

/-- One step of the initial-code-state discovery loop: partitions
already discovered are skipped (`continue`); otherwise a concrete
`CodeStateID` is recorded. -/
def fcsStep (m : List (Ident × Nat)) (e : Event) : List (Ident × Nat) :=
  if (dget m (identOf e)).isSome then m
  else
    match e.CodeStateID with
    | some c => dset m (identOf e) c
    | none => m

/-- The initial-code-state discovery pass of `finalize_table`
(lines 364-373): per partition, the `CodeStateID` of the first event
that carries one. -/
def firstCodeStates (t : List Event) : List (Ident × Nat) :=
  t.foldl fcsStep []

/-- The Compile/Compile.Error linking pass of `finalize_table`
(lines 375-389): per partition, remember the `EventID` of the most
recent `Compile`; a `Compile.Error` gets its `ParentEventID` attribute
set to that id, or to the sentinel `-1` when no `Compile` has been seen
in its partition. -/
def linkAux : List (Ident × Nat) → List Event → List Event
  | _, [] => []
  | prev, e :: rest =>
    if e.EventType = "Compile" then
      e :: linkAux (dset prev (identOf e) e.EventID) rest
    else if e.EventType = "Compile.Error" then
      (match dget prev (identOf e) with
       | some x => { e with ParentEventIDAttr := some (x : Int) }
       | none => { e with ParentEventIDAttr := some (-1 : Int) }) ::
        linkAux prev rest
    else e :: linkAux prev rest

def linkCompiles (t : List Event) : List Event := linkAux [] t

/-- One step of the order/code-state/score carry-forward pass of
`finalize_table` (lines 391-414), and the pass itself.  `fcs` is the
`first_code_states` dictionary (the Python loop inserts a `0` default
for missing partitions before reading; reading with a `0` default is
the same thing), `cs` is `code_states`, `ss` is `score_state`, `order`
is the running order counter.  A `None` score inherits the partition's
running score; a concrete score updates it.  A `None` `CodeStateID`
inherits the partition's current code state (`set_ordering` with a code
state); a concrete one updates the current code state
(`set_ordering` with only the order). -/
def carryAux (fcs : List (Ident × Nat)) :
    Nat → List (Ident × Nat) → List (Ident × Int) → List Event → List Event
  | _, _, _, [] => []
  | order, cs, ss, e :: rest =>
    let id := identOf e
    let current_code_state := (dget cs id).getD ((dget fcs id).getD 0)
    let current_score_state := (dget ss id).getD 0
    let scored : Event × Int :=
      match e.Score with
      | none => ({ e with Score := some current_score_state }, current_score_state)
      | some sc => (e, sc)
    let stepped : Event × Nat :=
      match scored.1.CodeStateID with
      | none =>
        ({ scored.1 with Order := some order, CodeStateID := some current_code_state },
         current_code_state)
      | some c => ({ scored.1 with Order := some order }, c)
    stepped.1 ::
      carryAux fcs (order + 1) (dset cs id stepped.2) (dset ss id scored.2) rest

/-- `ProgSnap2.finalize_table` (blockpy converter, lines 330-421):
sort, remap uploads, discover initial code states, link compile errors,
carry forward order/code-state/score, and filter out `BAD_EVENTS` —
which is created empty and never added to, so the final filter pass
(guarded by `if BAD_EVENTS:`) does nothing. -/
def finalize_table (t : List Event) : List Event :=
  let sorted := sortTable t
  let remapped := remapUploads sorted
  let fcs := firstCodeStates remapped
  let linked := linkCompiles remapped
  let carried := carryAux fcs 0 [] [] linked
  let BAD_EVENTS : List Nat := []
  if BAD_EVENTS.isEmpty then carried
  else carried.filter (fun e => !(BAD_EVENTS.contains e.EventID))

/-- `pending` markers all point strictly before position `i`. -/
def Bounded (pending : List (Ident × Nat)) (i : Nat) : Prop :=
  ∀ id v, dget pending id = some v → v < i

/-- Distinct partitions never share a marker position. -/
def PInj (pending : List (Ident × Nat)) : Prop :=
  ∀ id1 id2 v, dget pending id1 = some v → dget pending id2 = some v →
    id1 = id2

theorem bounded_nil (i : Nat) : Bounded [] i := by
  intro id v h
  simp [dget] at h

theorem pinj_nil : PInj [] := by
  intro id1 id2 v h
  simp [dget] at h

theorem bounded_mono {p : List (Ident × Nat)} {i j : Nat}
    (h : Bounded p i) (hij : i ≤ j) : Bounded p j :=
  fun id v hv => lt_of_lt_of_le (h id v hv) hij

theorem bounded_dset {p : List (Ident × Nat)} {i : Nat} (h : Bounded p i)
    (k : Ident) : Bounded (dset p k i) (i + 1) := by
  intro id v hv
  by_cases hik : id = k
  · subst hik
    rw [dget_dset_self] at hv
    injection hv with hv
    omega
  · rw [dget_dset_ne _ _ hik] at hv
    exact lt_of_lt_of_le (h id v hv) (Nat.le_succ i)

theorem dget_ddel_sub {α : Type} {p : List (Ident × α)} {k id : Ident}
    {v : α} (h : dget (ddel p k) id = some v) : dget p id = some v := by
  by_cases hik : id = k
  · subst hik
    rw [dget_ddel_self] at h
    exact absurd h (by simp)
  · rwa [dget_ddel_ne _ hik] at h

theorem bounded_ddel {p : List (Ident × Nat)} {i : Nat} (h : Bounded p i)
    (k : Ident) : Bounded (ddel p k) i :=
  fun id v hv => h id v (dget_ddel_sub hv)

theorem pinj_dset_fresh {p : List (Ident × Nat)} {i : Nat}
    (hinj : PInj p) (hb : Bounded p i) (k : Ident) :
    PInj (dset p k i) := by
  intro id1 id2 v h1 h2
  by_cases e1 : id1 = k <;> by_cases e2 : id2 = k
  · rw [e1, e2]
  · subst e1
    rw [dget_dset_self] at h1
    rw [dget_dset_ne _ _ e2] at h2
    cases h1
    exact absurd (hb id2 i h2) (lt_irrefl i)
  · subst e2
    rw [dget_dset_self] at h2
    rw [dget_dset_ne _ _ e1] at h1
    cases h2
    exact absurd (hb id1 i h1) (lt_irrefl i)
  · rw [dget_dset_ne _ _ e1] at h1
    rw [dget_dset_ne _ _ e2] at h2
    exact hinj id1 id2 v h1 h2

theorem pinj_ddel {p : List (Ident × Nat)} (hinj : PInj p) (k : Ident) :
    PInj (ddel p k) := by
  intro id1 id2 v h1 h2
  exact hinj id1 id2 v (dget_ddel_sub h1) (dget_ddel_sub h2)

theorem lookupPatch_cons (j : Nat) (c : Option Nat)
    (u : List (Nat × Option Nat)) (p : Nat) :
    lookupPatch ((j, c) :: u) p = if j = p then some c else lookupPatch u p := by
  by_cases h : j = p
  · subst h
    unfold lookupPatch
    rw [List.find?_cons_of_pos _ (by simp)]
    simp
  · unfold lookupPatch
    rw [List.find?_cons_of_neg _ (by simp [h]), if_neg h]

theorem nextUoE_cons (p : Ident) (e : Event) (rest : List Event) :
    nextUoE p (e :: rest) =
      if identOf e = p ∧ uoe e = true then some e else nextUoE p rest := by
  by_cases h1 : identOf e = p <;> by_cases h2 : uoe e = true
  · unfold nextUoE
    rw [List.find?_cons_of_pos _ (by simp [h1, h2]), if_pos ⟨h1, h2⟩]
  · unfold nextUoE
    rw [List.find?_cons_of_neg _ (by simp [h2]),
      if_neg (fun hc => h2 hc.2)]
  · unfold nextUoE
    rw [List.find?_cons_of_neg _ (by simp [h1]),
      if_neg (fun hc => h1 hc.1)]
  · unfold nextUoE
    rw [List.find?_cons_of_neg _ (by simp [h1]),
      if_neg (fun hc => h1 hc.1)]

/-- No patch is ever emitted for a position that is neither marked nor
yet to come. -/
theorem scan_no_patch : ∀ (rest : List Event) (i : Nat)
    (pending : List (Ident × Nat)) (p : Nat), Bounded pending i →
    (∀ id, dget pending id ≠ some p) → p < i →
    lookupPatch (remapScanAux i pending rest) p = none := by
  intro rest
  induction rest with
  | nil => intro i pending p _ _ _; rfl
  | cons e rest ih =>
    intro i pending p hb hnot hpi
    rw [remapScanAux]
    by_cases hu : e.EventType = "X-File.Upload"
    · rw [if_pos hu]
      refine ih (i + 1) _ p (bounded_dset hb _) ?_ (by omega)
      intro id
      by_cases hid : id = identOf e
      · subst hid
        rw [dget_dset_self]
        intro hc
        cases hc
        exact absurd hpi (lt_irrefl i)
      · rw [dget_dset_ne _ _ hid]
        exact hnot id
    · rw [if_neg hu]
      by_cases he : e.EventType = "File.Edit"
      · rw [if_pos he]
        cases hm : dget pending (identOf e) with
        | some j =>
          rw [lookupPatch_cons]
          rw [if_neg (fun hc : j = p => hnot (identOf e) (hc ▸ hm))]
          refine ih (i + 1) _ p (bounded_mono (bounded_ddel hb _) (by omega)) ?_ (by omega)
          intro id hc
          exact hnot id (dget_ddel_sub hc)
        | none =>
          exact ih (i + 1) _ p (bounded_mono hb (by omega)) hnot (by omega)
      · rw [if_neg he]
        exact ih (i + 1) _ p (bounded_mono hb (by omega)) hnot (by omega)

/-- Resolution of a pending marker: the patch recorded for a marked
upload position is determined by the first upload-or-edit of its
partition among the remaining events. -/
theorem scan_marker : ∀ (rest : List Event) (i : Nat)
    (pending : List (Ident × Nat)) (id : Ident) (p : Nat),
    Bounded pending i → PInj pending → dget pending id = some p →
    lookupPatch (remapScanAux i pending rest) p =
      resolveUoE (nextUoE id rest) := by
  intro rest
  induction rest with
  | nil => intro i pending id p _ _ _; rfl
  | cons e rest ih =>
    intro i pending id p hb hinj hm
    have hpi : p < i := hb id p hm
    rw [remapScanAux, nextUoE_cons]
    by_cases hu : e.EventType = "X-File.Upload"
    · rw [if_pos hu]
      by_cases hid : identOf e = id
      · rw [if_pos ⟨hid, by simp [uoe, hu]⟩]
        have hne : ¬ e.EventType = "File.Edit" := by rw [hu]; decide
        rw [resolveUoE, if_neg hne]
        refine scan_no_patch rest (i + 1) _ p (bounded_dset hb _) ?_ (by omega)
        intro k
        by_cases hk : k = identOf e
        · subst hk
          rw [dget_dset_self]
          intro hc
          injection hc with hc
          omega
        · rw [dget_dset_ne _ _ hk]
          intro hc
          exact hk (hid ▸ hinj k id p hc hm)
      · rw [if_neg (fun hc => hid hc.1)]
        refine ih (i + 1) _ id p (bounded_dset hb _) (pinj_dset_fresh hinj hb _) ?_
        rw [dget_dset_ne _ _ (fun hc : id = identOf e => hid hc.symm)]
        exact hm
    · rw [if_neg hu]
      by_cases he : e.EventType = "File.Edit"
      · rw [if_pos he]
        by_cases hid : identOf e = id
        · rw [if_pos ⟨hid, by simp [uoe, he]⟩, resolveUoE, if_pos he]
          rw [hid, hm]
          show lookupPatch ((p, e.CodeStateID) ::
            remapScanAux (i + 1) (ddel pending id) rest) p = some e.CodeStateID
          rw [lookupPatch_cons, if_pos rfl]
        · cases hmk : dget pending (identOf e) with
          | some j =>
            rw [lookupPatch_cons]
            have hjp : j ≠ p := fun hc => hid (hinj (identOf e) id p (hc ▸ hmk) hm)
            rw [if_neg hjp, if_neg (fun hc => hid hc.1)]
            refine ih (i + 1) _ id p (bounded_mono (bounded_ddel hb _) (by omega))
              (pinj_ddel hinj _) ?_
            rw [dget_ddel_ne _ (fun hc : id = identOf e => hid hc.symm)]
            exact hm
          | none =>
            rw [if_neg (fun hc => hid hc.1)]
            exact ih (i + 1) _ id p (bounded_mono hb (by omega)) hinj hm
      · rw [if_neg he]
        rw [if_neg (fun hc : identOf e = id ∧ uoe e = true => by
          rcases hc with ⟨_, hc2⟩
          simp [uoe, hu, he] at hc2)]
        exact ih (i + 1) _ id p (bounded_mono hb (by omega)) hinj hm

/-- Complete positional description of the remap scan: the patch at
position `i + a` is `expectedPatch` of the event at relative position
`a`, looking at the events after it. -/
theorem scan_pos : ∀ (rest : List Event) (i : Nat)
    (pending : List (Ident × Nat)) (a : Nat) (e : Event),
    Bounded pending i → PInj pending → rest.get? a = some e →
    lookupPatch (remapScanAux i pending rest) (i + a) =
      expectedPatch e (rest.drop (a + 1)) := by
  intro rest
  induction rest with
  | nil => intro i pending a e _ _ h; exact absurd h (by simp)
  | cons x rest ih =>
    intro i pending a e hb hinj hget
    cases a with
    | zero =>
      have h2 : e = x := by
        simp only [List.get?] at hget
        exact (Option.some_inj.mp hget).symm
      subst h2
      rw [remapScanAux]
      simp only [Nat.add_zero, List.drop_succ_cons, List.drop_zero]
      by_cases hu : e.EventType = "X-File.Upload"
      · rw [if_pos hu]
        have := scan_marker rest (i + 1) (dset pending (identOf e) i)
          (identOf e) i (bounded_dset hb _) (pinj_dset_fresh hinj hb _)
          (dget_dset_self _ _ _)
        rw [this]
        rw [expectedPatch, if_pos hu]
      · rw [if_neg hu, expectedPatch, if_neg hu]
        by_cases he : e.EventType = "File.Edit"
        · rw [if_pos he]
          cases hm : dget pending (identOf e) with
          | some j =>
            rw [lookupPatch_cons]
            have hj : j < i := hb _ _ hm
            rw [if_neg (by omega)]
            refine scan_no_patch rest (i + 1) _ i
              (bounded_mono (bounded_ddel hb _) (by omega)) ?_ (by omega)
            intro k hc
            have := hb k i (dget_ddel_sub hc)
            omega
          | none =>
            refine scan_no_patch rest (i + 1) _ i (bounded_mono hb (by omega)) ?_ (by omega)
            intro k hc
            have := hb k i hc
            omega
        · rw [if_neg he]
          refine scan_no_patch rest (i + 1) _ i (bounded_mono hb (by omega)) ?_ (by omega)
          intro k hc
          have := hb k i hc
          omega
    | succ a =>
      rw [List.get?] at hget
      rw [remapScanAux]
      have hshift : i + (a + 1) = (i + 1) + a := by omega
      have hdrop : (x :: rest).drop (a + 1 + 1) = rest.drop (a + 1) := by
        rw [List.drop_succ_cons]
      rw [hdrop, hshift]
      by_cases hu : x.EventType = "X-File.Upload"
      · rw [if_pos hu]
        exact ih (i + 1) _ a e (bounded_dset hb _) (pinj_dset_fresh hinj hb _) hget
      · rw [if_neg hu]
        by_cases he : x.EventType = "File.Edit"
        · rw [if_pos he]
          cases hm : dget pending (identOf x) with
          | some j =>
            rw [lookupPatch_cons]
            have hj : j < i := hb _ _ hm
            rw [if_neg (by omega)]
            exact ih (i + 1) _ a e (bounded_mono (bounded_ddel hb _) (by omega))
              (pinj_ddel hinj _) hget
          | none =>
            exact ih (i + 1) _ a e (bounded_mono hb (by omega)) hinj hget
        · rw [if_neg he]
          exact ih (i + 1) _ a e (bounded_mono hb (by omega)) hinj hget

theorem remapRec_get? : ∀ (t : List Event) (a : Nat),
    (remapRec t).get? a =
      (t.get? a).map (fun e => applyPatch e (expectedPatch e (t.drop (a + 1)))) := by
  intro t
  induction t with
  | nil => intro a; rfl
  | cons x rest ih =>
    intro a
    cases a with
    | zero =>
      simp only [remapRec, List.get?, List.drop_succ_cons, List.drop_zero,
        Option.map_some']
    | succ a =>
      simp only [remapRec, List.get?, List.drop_succ_cons]
      exact ih a

theorem remapUploads_get? (t : List Event) (a : Nat) :
    (remapUploads t).get? a =
      (t.get? a).map (fun e => applyPatch e (expectedPatch e (t.drop (a + 1)))) := by
  unfold remapUploads
  rw [List.get?_map, List.get?_enum]
  cases hget : t.get? a with
  | none => rfl
  | some e =>
    simp only [Option.map_some']
    have := scan_pos t 0 [] a e (bounded_nil 0) pinj_nil hget
    rw [Nat.zero_add] at this
    rw [this]
    rfl

/-- The positional remap pass coincides with its recursive form. -/
theorem remapUploads_eq_remapRec (t : List Event) :
    remapUploads t = remapRec t := by
  apply List.ext_get?
  intro a
  rw [remapUploads_get?, remapRec_get?]

theorem find?_first {α : Type} (p : α → Bool) :
    ∀ (l : List α) (m : Nat) (y : α), l.get? m = some y → p y = true →
    (∀ j x, j < m → l.get? j = some x → p x = false) →
    l.find? p = some y := by
  intro l
  induction l with
  | nil => intro m y hy _ _; exact absurd hy (by simp)
  | cons a l ih =>
    intro m y hy hpy hbefore
    cases m with
    | zero =>
      simp only [List.get?] at hy
      cases Option.some_inj.mp hy
      exact List.find?_cons_of_pos _ hpy
    | succ m =>
      simp only [List.get?] at hy
      have hpa : p a = false := hbefore 0 a (Nat.succ_pos m) rfl
      rw [List.find?_cons_of_neg _ (by simp [hpa])]
      exact ih m y hy hpy (fun j x hj hx => hbefore (j + 1) x (by omega) hx)

theorem dropped_get? {α : Type} (l : List α) (n j : Nat) :
    (l.drop n).get? j = l.get? (n + j) := by
  rw [List.get?_eq_getElem?, List.get?_eq_getElem?, List.getElem?_drop]

/-- `linkCompiles` only assigns the `ParentEventID` attribute: every
other field of the event at each position is unchanged. -/
theorem link_get? : ∀ (t : List Event) (prev : List (Ident × Nat)) (i : Nat)
    (e : Event), t.get? i = some e →
    ∃ e2, (linkAux prev t).get? i = some e2 ∧ e2.EventID = e.EventID ∧
      e2.EventType = e.EventType ∧ e2.CodeStateID = e.CodeStateID ∧
      e2.Score = e.Score ∧ e2.extras = e.extras ∧
      e2.ClientTimestamp = e.ClientTimestamp ∧
      e2.ServerTimestamp = e.ServerTimestamp ∧ identOf e2 = identOf e := by
  intro t
  induction t with
  | nil => intro prev i e h; exact absurd h (by simp)
  | cons x rest ih =>
    intro prev i e hget
    cases i with
    | zero =>
      simp only [List.get?] at hget
      cases Option.some_inj.mp hget
      rw [linkAux]
      by_cases hc : x.EventType = "Compile"
      · rw [if_pos hc]
        exact ⟨x, rfl, rfl, rfl, rfl, rfl, rfl, rfl, rfl, rfl⟩
      · rw [if_neg hc]
        by_cases he : x.EventType = "Compile.Error"
        · rw [if_pos he]
          cases dget prev (identOf x) with
          | some v => exact ⟨_, rfl, rfl, rfl, rfl, rfl, rfl, rfl, rfl, rfl⟩
          | none => exact ⟨_, rfl, rfl, rfl, rfl, rfl, rfl, rfl, rfl, rfl⟩
        · rw [if_neg he]
          exact ⟨x, rfl, rfl, rfl, rfl, rfl, rfl, rfl, rfl, rfl⟩
    | succ i =>
      simp only [List.get?] at hget
      rw [linkAux]
      by_cases hc : x.EventType = "Compile"
      · rw [if_pos hc]
        exact ih _ i e hget
      · rw [if_neg hc]
        by_cases he : x.EventType = "Compile.Error"
        · rw [if_pos he]
          cases dget prev (identOf x) with
          | some v => exact ih _ i e hget
          | none => exact ih _ i e hget
        · rw [if_neg he]
          exact ih _ i e hget

/-- The carry-forward pass keeps an already-concrete `CodeStateID`. -/
theorem carry_preserves_concrete (fcs : List (Ident × Nat)) :
    ∀ (t : List Event) (order : Nat) (cs : List (Ident × Nat))
      (ss : List (Ident × Int)) (i : Nat) (e : Event) (c : Nat),
    t.get? i = some e → e.CodeStateID = some c →
    ∃ e2, (carryAux fcs order cs ss t).get? i = some e2 ∧
      e2.CodeStateID = some c ∧ e2.EventID = e.EventID ∧
      e2.EventType = e.EventType := by
  intro t
  induction t with
  | nil => intro order cs ss i e c h _; exact absurd h (by simp)
  | cons x rest ih =>
    intro order cs ss i e c hget hc
    cases i with
    | zero =>
      simp only [List.get?] at hget
      cases Option.some_inj.mp hget
      rw [carryAux]
      refine ⟨_, rfl, ?_, ?_, ?_⟩ <;> cases hs : x.Score <;> simp [hs, hc]
    | succ i =>
      simp only [List.get?] at hget
      rw [carryAux]
      exact ih _ _ _ i e c hget hc

theorem finalize_table_eq (l : List Event) :
    finalize_table l =
      carryAux (firstCodeStates (remapUploads (sortTable l))) 0 [] []
        (linkCompiles (remapUploads (sortTable l))) := rfl

/-- The remap pass rewrites an upload's `CodeStateID` to that of the
first subsequent same-partition `File.Edit`, provided no upload of the
same partition intervenes. -/
theorem remap_upload_first_edit {t : List Event} {i k : Nat} {u e : Event}
    (hu : t.get? i = some u) (hty : u.EventType = "X-File.Upload")
    (hk : t.get? k = some e) (hik : i < k)
    (hedit : e.EventType = "File.Edit") (hid : identOf e = identOf u)
    (hbetween : ∀ j ej, i < j → j < k → t.get? j = some ej →
      identOf ej = identOf u → uoe ej = false) :
    (remapUploads t).get? i = some { u with CodeStateID := e.CodeStateID } := by
  rw [remapUploads_get?, hu, Option.map_some']
  have hnext : nextUoE (identOf u) (t.drop (i + 1)) = some e := by
    refine find?_first _ (t.drop (i + 1)) (k - i - 1) e ?_ ?_ ?_
    · rw [dropped_get?]
      have : i + 1 + (k - i - 1) = k := by omega
      rw [this]
      exact hk
    · simp [hid, uoe, hedit]
    · intro j x hj hx
      rw [dropped_get?] at hx
      by_cases hxid : identOf x = identOf u
      · have := hbetween (i + 1 + j) x (by omega) (by omega) hx hxid
        simp [hxid, this]
      · simp [hxid]
  rw [expectedPatch, if_pos hty, hnext, resolveUoE, if_pos hedit]
  rfl

/-- The remap pass leaves an upload unchanged when its partition has no
subsequent `File.Edit`. -/
theorem remap_upload_unmatched {t : List Event} {i : Nat} {u : Event}
    (hu : t.get? i = some u) (hty : u.EventType = "X-File.Upload")
    (hnoedit : ∀ k e, t.get? k = some e → i < k → identOf e = identOf u →
      e.EventType ≠ "File.Edit") :
    (remapUploads t).get? i = some u := by
  rw [remapUploads_get?, hu, Option.map_some']
  rw [expectedPatch, if_pos hty]
  cases hn : nextUoE (identOf u) (t.drop (i + 1)) with
  | none => rfl
  | some e2 =>
    have hp := List.find?_some hn
    rw [Bool.and_eq_true, decide_eq_true_eq] at hp
    obtain ⟨hpid, _⟩ := hp
    have hmem := List.mem_of_find?_eq_some hn
    rw [List.mem_iff_get?] at hmem
    obtain ⟨n, hn2⟩ := hmem
    rw [dropped_get?] at hn2
    have hne := hnoedit (i + 1 + n) e2 hn2 (by omega) hpid
    rw [resolveUoE, if_neg hne]
    rfl

/-- C4, amended: `finalize_table` tracks, per partition, the MOST RECENT
unmatched `X-File.Upload`; so an upload `u` gets the `CodeStateID` of
the first subsequent same-partition `File.Edit` only when no other
upload of that partition intervenes before that edit (an intervening
upload overwrites the marker, and an earlier edit would consume it).
Under that proviso, after finalization the upload's `CodeStateID` equals
that `File.Edit`'s `CodeStateID` — in particular the spec's scenario
(upload at t=5 with no `CodeStateID`, then `File.Edit` at t=6 with
`CodeStateID` 7) ends with the upload's `CodeStateID` equal to 7.
An upload with no subsequent same-partition edit is not remapped at all
(it is only tallied; nothing fails). -/
theorem C4_upload_edit_coalescing (l : List Event) (i k : Nat) (u e : Event)
    (c : Nat)
    (hu : (sortTable l).get? i = some u)
    (hty : u.EventType = "X-File.Upload")
    (hk : (sortTable l).get? k = some e)
    (hik : i < k)
    (hedit : e.EventType = "File.Edit")
    (hid : identOf e = identOf u)
    (hcs : e.CodeStateID = some c)
    (hbetween : ∀ j ej, i < j → j < k → (sortTable l).get? j = some ej →
      identOf ej = identOf u → uoe ej = false) :
    (∃ u2, (finalize_table l).get? i = some u2 ∧ u2.EventID = u.EventID ∧
       u2.EventType = "X-File.Upload" ∧ u2.CodeStateID = some c) ∧
    (∀ (t : List Event) (i2 : Nat) (u2 : Event), t.get? i2 = some u2 →
       u2.EventType = "X-File.Upload" →
       (∀ k2 e2, t.get? k2 = some e2 → i2 < k2 → identOf e2 = identOf u2 →
         e2.EventType ≠ "File.Edit") →
       (remapUploads t).get? i2 = some u2) := by
  constructor
  · have hremap := remap_upload_first_edit hu hty hk hik hedit hid hbetween
    rw [hcs] at hremap
    obtain ⟨e2, hlink, hlid, hlty, hlcs, _, _, _, _, _⟩ :=
      link_get? (remapUploads (sortTable l)) [] i _ hremap
    obtain ⟨e3, hcarry, hccs, hcid, hcty⟩ :=
      carry_preserves_concrete (firstCodeStates (remapUploads (sortTable l)))
        (linkCompiles (remapUploads (sortTable l))) 0 [] [] i e2 c hlink
        (by rw [hlcs])
    refine ⟨e3, by rw [finalize_table_eq]; exact hcarry, ?_, ?_, hccs⟩
    · rw [hcid, hlid]
    · rw [hcty, hlty, hty]
  · intro t i2 u2 hget2 hty2 hnoedit
    exact remap_upload_unmatched hget2 hty2 hnoedit

/-- A concrete event constructor used by the concrete scenarios below. -/
def mkTestEvent (id : Nat) (ts ty : String) (cs : Option Nat) : Event :=
  { EventID := id, ClientTimestamp := ts, ServerTimestamp := ts,
    SubjectID := "s1", AssignmentID := "a1", EventType := ty,
    CodeStateID := cs, Score := none }

/-- An input with (in timestamp order) an edit carrying code state 3,
two uploads, and an edit carrying code state 7 — all in one partition. -/
def c4Input : List Event :=
  [mkTestEvent 0 "0" "File.Edit" (some 3),
   mkTestEvent 1 "1" "X-File.Upload" none,
   mkTestEvent 2 "2" "X-File.Upload" none,
   mkTestEvent 3 "3" "File.Edit" (some 7)]

/-- C4, counterexample to the claim as stated: in `c4Input` the upload
at sorted position 1 IS followed (in sorted order, same partition) by
the `File.Edit` at position 3 whose `CodeStateID` is 7, yet after
finalization that upload's `CodeStateID` is 3, not 7 — because the
second upload overwrote the pending-upload marker. -/
theorem C4_upload_edit_counterexample :
    (sortTable c4Input).get? 1 =
        some (mkTestEvent 1 "1" "X-File.Upload" none) ∧
      (mkTestEvent 1 "1" "X-File.Upload" none).EventType = "X-File.Upload" ∧
      (sortTable c4Input).get? 3 =
        some (mkTestEvent 3 "3" "File.Edit" (some 7)) ∧
      identOf (mkTestEvent 3 "3" "File.Edit" (some 7)) =
        identOf (mkTestEvent 1 "1" "X-File.Upload" none) ∧
      (mkTestEvent 3 "3" "File.Edit" (some 7)).EventType = "File.Edit" ∧
      (mkTestEvent 3 "3" "File.Edit" (some 7)).CodeStateID = some 7 ∧
      ((finalize_table c4Input).get? 1).map Event.CodeStateID =
        some (some 3) ∧
      some (3 : Nat) ≠ some 7 := by
  decide

/-- The spec's upload-then-edit scenario: an upload at t=5 with no
`CodeStateID`, then a `File.Edit` at t=6 with `CodeStateID` 7, in one
partition. -/
def c4ScenarioInput : List Event :=
  [mkTestEvent 10 "5" "X-File.Upload" none,
   mkTestEvent 11 "6" "File.Edit" (some 7)]

theorem C4_upload_edit_coalescing_witness :
    ∃ u2, (finalize_table c4ScenarioInput).get? 0 = some u2 ∧
      u2.EventID = (mkTestEvent 10 "5" "X-File.Upload" none).EventID ∧
      u2.EventType = "X-File.Upload" ∧ u2.CodeStateID = some 7 :=
  (C4_upload_edit_coalescing c4ScenarioInput 0 1
    (mkTestEvent 10 "5" "X-File.Upload" none)
    (mkTestEvent 11 "6" "File.Edit" (some 7)) 7
    (by decide) (by decide) (by decide) (by decide) (by decide) (by decide)
    (by decide)
    (fun j ej h1 h2 _ _ => absurd (h1.trans h2) (by omega))).1

/-- One step of the fold computing the most recent concrete
`CodeStateID` of partition `p`. -/
def lastConcreteStep (p : Ident) (acc : Option Nat) (e : Event) : Option Nat :=
  if identOf e = p then
    (match e.CodeStateID with
     | some c => some c
     | none => acc)
  else acc

/-- The most recent concrete `CodeStateID` carried by a partition-`p`
event of `t` (scanning left to right). -/
def lastConcrete (t : List Event) (p : Ident) : Option Nat :=
  t.foldl (lastConcreteStep p) none

theorem lastConcrete_from : ∀ (t : List Event) (acc : Option Nat) (p : Ident),
    t.foldl (lastConcreteStep p) acc =
      (match lastConcrete t p with
       | some c => some c
       | none => acc) := by
  intro t
  induction t with
  | nil => intro acc p; rfl
  | cons e t ih =>
    intro acc p
    rw [List.foldl_cons, ih (lastConcreteStep p acc e) p]
    conv_rhs => rw [lastConcrete, List.foldl_cons, ih (lastConcreteStep p none e) p]
    cases hlc : lastConcrete t p with
    | some c => rfl
    | none =>
      unfold lastConcreteStep
      by_cases hp : identOf e = p
      · rw [if_pos hp, if_pos hp]
        cases e.CodeStateID <;> rfl
      · rw [if_neg hp, if_neg hp]

theorem lastConcrete_cons (e : Event) (t : List Event) (p : Ident) :
    lastConcrete (e :: t) p =
      (match lastConcrete t p with
       | some c => some c
       | none => lastConcreteStep p none e) := by
  rw [lastConcrete, List.foldl_cons, lastConcrete_from]

/-- The value the carry-forward pass gives an event: the most recent
concrete `CodeStateID` among the same-partition events at or before it,
else the running `code_states` entry, else the `first_code_states`
baseline, else `0`. -/
def carriedSpec (fcs cs : List (Ident × Nat)) (t : List Event) (i : Nat)
    (p : Ident) : Nat :=
  match lastConcrete (t.take (i + 1)) p with
  | some c => c
  | none => (dget cs p).getD ((dget fcs p).getD 0)

/-- Characterization of the carry-forward pass: every event of the
output carries `some` of its `carriedSpec` value. -/
theorem carry_csid_char (fcs : List (Ident × Nat)) :
    ∀ (t : List Event) (order : Nat) (cs : List (Ident × Nat))
      (ss : List (Ident × Int)) (i : Nat) (e : Event),
    (carryAux fcs order cs ss t).get? i = some e →
    e.CodeStateID = some (carriedSpec fcs cs t i (identOf e)) := by
  intro t
  induction t with
  | nil => intro order cs ss i e h; exact absurd h (by simp [carryAux])
  | cons x rest ih =>
    intro order cs ss i e hget
    cases i with
    | zero =>
      rw [carryAux] at hget
      simp only [List.get?] at hget
      have he : e = _ := (Option.some_inj.mp hget).symm
      subst he
      unfold carriedSpec
      rw [List.take_succ_cons, List.take_zero, lastConcrete_cons]
      cases hs : x.Score <;> cases hxc : x.CodeStateID <;>
        simp [hs, hxc, lastConcrete, lastConcreteStep, identOf]
    | succ i =>
      rw [carryAux] at hget
      simp only [List.get?] at hget
      have := ih (order + 1) _ _ i e hget
      rw [this]
      unfold carriedSpec
      rw [List.take_succ_cons, lastConcrete_cons]
      cases hlc : lastConcrete (rest.take (i + 1)) (identOf e) with
      | some c => rfl
      | none =>
        unfold lastConcreteStep
        by_cases hp : identOf x = identOf e
        · rw [if_pos hp]
          cases hs : x.Score <;> cases hxc : x.CodeStateID <;>
            simp only [hs, hxc] <;>
            rw [← hp, dget_dset_self] <;>
            simp [hxc]
        · rw [if_neg hp]
          cases hs : x.Score <;> cases hxc : x.CodeStateID <;>
            simp only [hs, hxc] <;>
            rw [dget_dset_ne _ _ (fun hc : identOf e = identOf x => hp hc.symm)]

/-- The projection of an event that the carry pass's code-state logic
reads: its partition and its `CodeStateID`. -/
def projIC (e : Event) : Ident × Option Nat := (identOf e, e.CodeStateID)

theorem lastConcrete_eq_proj (t : List Event) (p : Ident) :
    lastConcrete t p =
      (t.map projIC).foldl
        (fun acc pr =>
          if pr.1 = p then
            (match pr.2 with
             | some c => some c
             | none => acc)
          else acc) none := by
  rw [List.foldl_map]
  rfl

theorem lastConcrete_congr {t1 t2 : List Event}
    (h : t1.map projIC = t2.map projIC) (p : Ident) :
    lastConcrete t1 p = lastConcrete t2 p := by
  rw [lastConcrete_eq_proj, lastConcrete_eq_proj, h]

theorem link_proj : ∀ (prev : List (Ident × Nat)) (t : List Event),
    (linkAux prev t).map projIC = t.map projIC := by
  intro prev t
  induction t generalizing prev with
  | nil => rfl
  | cons x rest ih =>
    rw [linkAux]
    by_cases hc : x.EventType = "Compile"
    · rw [if_pos hc, List.map_cons, List.map_cons, ih]
    · rw [if_neg hc]
      by_cases he : x.EventType = "Compile.Error"
      · rw [if_pos he]
        cases dget prev (identOf x) with
        | some v =>
          rw [List.map_cons, List.map_cons, ih]
          rfl
        | none =>
          rw [List.map_cons, List.map_cons, ih]
          rfl
      · rw [if_neg he, List.map_cons, List.map_cons, ih]

/-- C2, amended: after finalization every event's `CodeStateID` follows
most-recent-edit carry-forward over the POST-upload-remap values: an
event carries the most recent concrete post-remap `CodeStateID` among
the same-partition events at or before it in sorted order; events
before their partition's first concrete `CodeStateID` instead receive
the partition's `first_code_states` baseline (the first concrete
post-remap `CodeStateID` anywhere in the partition, `0` if none).  In
particular an event BEFORE the partition's first edit (and a remapped
upload) may reference a code state registered later in the timeline
than itself, which is what refutes the claim as stated. -/
theorem C2_carry_forward_amended (l : List Event) (i : Nat) (e : Event)
    (h : (finalize_table l).get? i = some e) :
    e.CodeStateID =
      some (carriedSpec (firstCodeStates (remapUploads (sortTable l))) []
        (remapUploads (sortTable l)) i (identOf e)) := by
  rw [finalize_table_eq] at h
  have hc := carry_csid_char (firstCodeStates (remapUploads (sortTable l)))
    (linkCompiles (remapUploads (sortTable l))) 0 [] [] i e h
  rw [hc]
  unfold carriedSpec
  have heq :
      lastConcrete ((linkCompiles (remapUploads (sortTable l))).take (i + 1))
          (identOf e) =
        lastConcrete ((remapUploads (sortTable l)).take (i + 1)) (identOf e) := by
    refine lastConcrete_congr ?_ _
    rw [List.map_take, List.map_take, linkCompiles, link_proj]
  rw [heq]

/-- A partition whose first event (a run) carries no `CodeStateID`,
followed by an edit registering code state 1. -/
def c2Input : List Event :=
  [mkTestEvent 0 "0" "Run.Program" none,
   mkTestEvent 1 "1" "File.Edit" (some 1)]

/-- The literal reading of the claim: every finalized event's non-zero
`CodeStateID` was carried by some same-partition event at or before it
(no event references a code state registered later than itself). -/
def NoLaterReference (orig fin : List Event) : Prop :=
  ∀ i e c, fin.get? i = some e → e.CodeStateID = some c → c ≠ 0 →
    ∃ j, j ≤ i ∧ ∃ e2, orig.get? j = some e2 ∧ identOf e2 = identOf e ∧
      e2.CodeStateID = some c

/-- The run event of `c2Input` after finalization. -/
def c2FinalEvent : Event :=
  { EventID := 0, ClientTimestamp := "0", ServerTimestamp := "0",
    SubjectID := "s1", AssignmentID := "a1", EventType := "Run.Program",
    CodeStateID := some 1, Score := some 0, ParentEventIDAttr := none,
    Order := some 0, extras := [] }

/-- C2, counterexample: in `c2Input` the finalized run event (position
0) carries `CodeStateID` 1, but code state 1 is registered only by the
edit at position 1, LATER in the timeline — the `first_code_states`
baseline seeds early events with a later code state. -/
theorem C2_no_later_reference_counterexample :
    ¬ NoLaterReference (sortTable c2Input) (finalize_table c2Input) := by
  intro h
  obtain ⟨j, hj, e2, hget, _, hcs⟩ :=
    h 0 c2FinalEvent 1 (by decide) (by decide) (by decide)
  have hj0 : j = 0 := Nat.le_zero.mp hj
  subst hj0
  have hsort : (sortTable c2Input).get? 0 =
      some (mkTestEvent 0 "0" "Run.Program" none) := by decide
  rw [hsort] at hget
  cases Option.some_inj.mp hget
  exact absurd hcs (by decide)

theorem C2_carry_forward_amended_witness :
    (finalize_table c2Input).get? 0 = some c2FinalEvent ∧
      c2FinalEvent.CodeStateID =
        some (carriedSpec (firstCodeStates (remapUploads (sortTable c2Input)))
          [] (remapUploads (sortTable c2Input)) 0 (identOf c2FinalEvent)) :=
  ⟨by decide, C2_carry_forward_amended c2Input 0 c2FinalEvent (by decide)⟩

/-- C5: the finalization sort orders the table by the key
`(ClientTimestamp, priority(EventType))` — a stable sort (the table is
sorted w.r.t. `eventLe` and is a permutation of the input, and any two
events already in key order keep their relative order), where the
priority of a listed event type is its index in
`ARBITRARY_EVENT_ORDER` (always less than the list's length) and an
unlisted event type gets the length itself, sorting after all known
types; in particular, among equal `ClientTimestamp`s a `Compile` event
is always placed before a `Run.Program` event. -/
theorem C5_finalize_sort_order (l : List Event) (i j : Nat) (ea eb : Event)
    (hi : (sortTable l).get? i = some ea)
    (hj : (sortTable l).get? j = some eb)
    (hca : ea.EventType = "Compile")
    (hrb : eb.EventType = "Run.Program")
    (hts : ea.ClientTimestamp = eb.ClientTimestamp) :
    i < j ∧
      (sortTable l).Sorted eventLe ∧
      (sortTable l).Perm l ∧
      (∀ a b : Event, eventLe a b → [a, b].Sublist l →
        [a, b].Sublist (sortTable l)) ∧
      (∀ ty, ty ∈ ARBITRARY_EVENT_ORDER →
        ARBITRARY_EVENT_ORDER.indexOf ty < ARBITRARY_EVENT_ORDER.length) ∧
      (∀ ty, ty ∉ ARBITRARY_EVENT_ORDER →
        ARBITRARY_EVENT_ORDER.indexOf ty = ARBITRARY_EVENT_ORDER.length) := by
  have hsorted : (sortTable l).Sorted eventLe := List.sorted_insertionSort _ _
  refine ⟨?_, hsorted, List.perm_insertionSort _ _, ?_, ?_, ?_⟩
  · -- Compile before Run.Program at equal timestamps
    obtain ⟨hbi, hgi⟩ := List.get?_eq_some.mp hi
    obtain ⟨hbj, hgj⟩ := List.get?_eq_some.mp hj
    by_contra hij
    push_neg at hij
    rcases Nat.lt_or_ge j i with hji | hji
    · have hrel := List.pairwise_iff_get.mp hsorted ⟨j, hbj⟩ ⟨i, hbi⟩ hji
      rw [hgi, hgj] at hrel
      unfold eventLe keyLe get_order at hrel
      rw [hca, hrb, hts, if_pos rfl] at hrel
      rw [decide_eq_true_eq] at hrel
      have hle : ARBITRARY_EVENT_ORDER.indexOf "Run.Program" ≤
          ARBITRARY_EVENT_ORDER.indexOf "Compile" := hrel
      exact absurd hle (by decide)
    · have hj2 : j = i := by omega
      subst hj2
      rw [hi] at hj
      cases Option.some_inj.mp hj
      rw [hca] at hrb
      exact absurd hrb (by decide)
  · intro a b hab hsub
    exact List.pair_sublist_insertionSort hab hsub
  · intro ty hty
    exact List.indexOf_lt_length.mpr hty
  · intro ty hty
    rcases Nat.lt_or_ge (ARBITRARY_EVENT_ORDER.indexOf ty)
      ARBITRARY_EVENT_ORDER.length with hlt | hge
    · exact absurd (List.indexOf_lt_length.mp hlt) hty
    · have := List.indexOf_le_length (a := ty) (l := ARBITRARY_EVENT_ORDER)
      omega

/-- Two events with the same timestamp: a run logged before a compile. -/
def c5Input : List Event :=
  [mkTestEvent 0 "5" "Run.Program" none,
   mkTestEvent 1 "5" "Compile" none]

theorem carry_map_eventID (fcs : List (Ident × Nat)) :
    ∀ (t : List Event) (order : Nat) (cs : List (Ident × Nat))
      (ss : List (Ident × Int)),
    (carryAux fcs order cs ss t).map Event.EventID = t.map Event.EventID := by
  intro t
  induction t with
  | nil => intro order cs ss; rfl
  | cons x rest ih =>
    intro order cs ss
    rw [carryAux, List.map_cons, List.map_cons, ih]
    congr 1
    cases hs : x.Score <;> cases hxc : x.CodeStateID <;> simp [hs, hxc]

theorem link_map_eventID : ∀ (prev : List (Ident × Nat)) (t : List Event),
    (linkAux prev t).map Event.EventID = t.map Event.EventID := by
  intro prev t
  induction t generalizing prev with
  | nil => rfl
  | cons x rest ih =>
    rw [linkAux]
    by_cases hc : x.EventType = "Compile"
    · rw [if_pos hc, List.map_cons, List.map_cons, ih]
    · rw [if_neg hc]
      by_cases he : x.EventType = "Compile.Error"
      · rw [if_pos he]
        cases dget prev (identOf x) with
        | some v => rw [List.map_cons, List.map_cons, ih]
        | none => rw [List.map_cons, List.map_cons, ih]
      · rw [if_neg he, List.map_cons, List.map_cons, ih]

theorem remapRec_map_eventID : ∀ (t : List Event),
    (remapRec t).map Event.EventID = t.map Event.EventID := by
  intro t
  induction t with
  | nil => rfl
  | cons x rest ih =>
    rw [remapRec, List.map_cons, List.map_cons, ih]
    congr 1
    cases expectedPatch x rest with
    | some c => rfl
    | none => rfl

/-- C9: finalization neither adds nor removes events — the multiset of
`EventID`s of the finalized table is a permutation of that of the
logged events (the `BAD_EVENTS` filter removes nothing, because
`BAD_EVENTS` is created empty and never added to), so the exported row
count equals the number of events created by the mapper. -/
theorem C9_finalize_preserves_events (t : List Event) :
    ((finalize_table t).map Event.EventID).Perm (t.map Event.EventID) ∧
      (finalize_table t).length = t.length := by
  have hmap : (finalize_table t).map Event.EventID =
      (sortTable t).map Event.EventID := by
    rw [finalize_table_eq, carry_map_eventID, linkCompiles, link_map_eventID,
      remapUploads_eq_remapRec, remapRec_map_eventID]
  have hperm : ((finalize_table t).map Event.EventID).Perm
      (t.map Event.EventID) := by
    rw [hmap]
    exact (List.perm_insertionSort _ _).map _
  refine ⟨hperm, ?_⟩
  have := hperm.length_eq
  rwa [List.length_map, List.length_map] at this

theorem C5_finalize_sort_order_witness :
    0 < 1 ∧
      (sortTable c5Input).Sorted eventLe ∧
      (sortTable c5Input).Perm c5Input ∧
      (∀ a b : Event, eventLe a b → [a, b].Sublist c5Input →
        [a, b].Sublist (sortTable c5Input)) ∧
      (∀ ty, ty ∈ ARBITRARY_EVENT_ORDER →
        ARBITRARY_EVENT_ORDER.indexOf ty < ARBITRARY_EVENT_ORDER.length) ∧
      (∀ ty, ty ∉ ARBITRARY_EVENT_ORDER →
        ARBITRARY_EVENT_ORDER.indexOf ty = ARBITRARY_EVENT_ORDER.length) :=
  C5_finalize_sort_order c5Input 0 1
    (mkTestEvent 1 "5" "Compile" none)
    (mkTestEvent 0 "5" "Run.Program" none)
    (by decide) (by decide) (by decide) (by decide) (by decide)

/-- The events of partition `p`, in order. -/
def filterP (p : Ident) (t : List Event) : List Event :=
  t.filter (fun e => decide (identOf e = p))

theorem orderedInsert_of_forall_rel {α : Type} {r : α → α → Prop}
    [DecidableRel r] (a : α) :
    ∀ (u : List α), (∀ x ∈ u, r a x) → u.orderedInsert r a = a :: u := by
  intro u h
  cases u with
  | nil => rfl
  | cons y u2 =>
    rw [List.orderedInsert, if_pos (h y (by simp))]

theorem filter_orderedInsert {α : Type} {r : α → α → Prop} [DecidableRel r]
    [IsTrans α r] (c : α → Bool) (a : α) :
    ∀ (s : List α), s.Sorted r →
    (s.orderedInsert r a).filter c =
      if c a then (s.filter c).orderedInsert r a else s.filter c := by
  intro s
  induction s with
  | nil =>
    intro _
    simp only [List.orderedInsert, List.filter]
    cases hca : c a <;> simp
  | cons b s2 ih =>
    intro hsorted
    rw [List.sorted_cons] at hsorted
    obtain ⟨hb, hs2⟩ := hsorted
    rw [List.orderedInsert]
    by_cases hr : r a b
    · rw [if_pos hr]
      cases hca : c a with
      | true =>
        cases hcb : c b with
        | true =>
          simp only [List.filter, hca, hcb, if_pos]
          rw [List.orderedInsert, if_pos hr]
        | false =>
          simp only [List.filter, hca, hcb, if_pos]
          rw [orderedInsert_of_forall_rel]
          intro x hx
          have hx2 := List.mem_of_mem_filter hx
          exact Trans.trans hr (hb x hx2)
      | false =>
        simp [List.filter, hca]
    · rw [if_neg hr]
      cases hca : c a with
      | true =>
        cases hcb : c b with
        | true =>
          simp only [List.filter, hca, hcb]
          rw [ih hs2, if_pos hca, if_pos trivial, List.orderedInsert,
            if_neg hr]
        | false =>
          simp only [List.filter, hca, hcb]
          rw [ih hs2, if_pos hca, if_pos trivial]
      | false =>
        cases hcb : c b with
        | true =>
          simp only [List.filter, hca, hcb]
          rw [ih hs2, if_neg (by simp [hca])]
          simp
        | false =>
          simp only [List.filter, hca, hcb]
          rw [ih hs2, if_neg (by simp [hca])]
          simp

theorem filter_insertionSort {α : Type} {r : α → α → Prop} [DecidableRel r]
    [IsTrans α r] [IsTotal α r] (c : α → Bool) :
    ∀ (l : List α),
    (l.insertionSort r).filter c = (l.filter c).insertionSort r := by
  intro l
  induction l with
  | nil => rfl
  | cons x l ih =>
    rw [List.insertionSort,
      filter_orderedInsert c x _ (List.sorted_insertionSort r l), ih]
    cases hcx : c x with
    | true =>
      simp only [List.filter, hcx, if_pos]
      rw [List.insertionSort]
    | false =>
      simp only [List.filter, hcx]
      rw [if_neg (by simp [hcx])]

/-- The stable sort commutes with partition filtering. -/
theorem filterP_sortTable (p : Ident) (t : List Event) :
    filterP p (sortTable t) = sortTable (filterP p t) :=
  filter_insertionSort _ t

theorem filterP_cons (p : Ident) (e : Event) (t : List Event) :
    filterP p (e :: t) =
      if identOf e = p then e :: filterP p t else filterP p t := by
  by_cases hp : identOf e = p
  · rw [if_pos hp]
    exact List.filter_cons_of_pos (by simp [hp])
  · rw [if_neg hp]
    exact List.filter_cons_of_neg (by simp [hp])

theorem find?_filter_of_imp {α : Type} (q c : α → Bool)
    (h : ∀ x, q x = true → c x = true) :
    ∀ (l : List α), (l.filter c).find? q = l.find? q := by
  intro l
  induction l with
  | nil => rfl
  | cons x l ih =>
    cases hc : c x with
    | true =>
      rw [List.filter_cons_of_pos hc]
      cases hq : q x with
      | true =>
        rw [List.find?_cons_of_pos _ hq, List.find?_cons_of_pos _ hq]
      | false =>
        rw [List.find?_cons_of_neg _ (by simp [hq]),
          List.find?_cons_of_neg _ (by simp [hq]), ih]
    | false =>
      rw [List.filter_cons_of_neg (by simp [hc])]
      have hq : q x = false := by
        cases hqx : q x with
        | true => exact absurd (h x hqx) (by simp [hc])
        | false => rfl
      rw [List.find?_cons_of_neg _ (by simp [hq]), ih]

theorem identOf_applyPatch (e : Event) (o : Option (Option Nat)) :
    identOf (applyPatch e o) = identOf e := by
  cases o <;> rfl

/-- The first same-partition upload-or-edit can be searched in the
partition's own subsequence. -/
theorem nextUoE_filterP (p : Ident) (t : List Event) :
    nextUoE p (filterP p t) = nextUoE p t := by
  unfold nextUoE filterP
  exact find?_filter_of_imp _ _
    (fun x hx => by
      rw [Bool.and_eq_true] at hx
      exact hx.1) t

/-- The upload-remap pass commutes with partition filtering. -/
theorem filterP_remapRec (p : Ident) : ∀ (t : List Event),
    filterP p (remapRec t) = remapRec (filterP p t) := by
  intro t
  induction t with
  | nil => rfl
  | cons x rest ih =>
    rw [remapRec, filterP_cons, filterP_cons]
    by_cases hp : identOf x = p
    · rw [if_pos (by rw [identOf_applyPatch]; exact hp), if_pos hp, remapRec, ih]
      have hpatch : expectedPatch x rest = expectedPatch x (filterP p rest) := by
        unfold expectedPatch
        by_cases hu : x.EventType = "X-File.Upload"
        · rw [if_pos hu, if_pos hu, hp, nextUoE_filterP]
        · rw [if_neg hu, if_neg hu]
      rw [hpatch]
    · rw [if_neg (by rw [identOf_applyPatch]; exact hp), if_neg hp, ih]

/-- The first concrete `CodeStateID` of a (single-partition) event
list. -/
def firstCSP : List Event → Option Nat
  | [] => none
  | e :: r =>
    match e.CodeStateID with
    | some c => some c
    | none => firstCSP r

theorem fcsStep_other {m : List (Ident × Nat)} {e : Event} {p : Ident}
    (hp : identOf e ≠ p) : dget (fcsStep m e) p = dget m p := by
  unfold fcsStep
  by_cases hm : (dget m (identOf e)).isSome
  · rw [if_pos hm]
  · rw [if_neg hm]
    cases e.CodeStateID with
    | some c => exact dget_dset_ne _ _ (fun hc : p = identOf e => hp hc.symm)
    | none => rfl

theorem firstCS_aux (p : Ident) : ∀ (t : List Event) (m : List (Ident × Nat)),
    dget (t.foldl fcsStep m) p =
      (match dget m p with
       | some v => some v
       | none => firstCSP (filterP p t)) := by
  intro t
  induction t with
  | nil =>
    intro m
    show dget m p = _
    cases dget m p <;> rfl
  | cons e t ih =>
    intro m
    rw [List.foldl_cons, ih (fcsStep m e), filterP_cons]
    by_cases hp : identOf e = p
    · rw [if_pos hp]
      cases hm : dget m p with
      | some v =>
        have h2 : dget (fcsStep m e) p = some v := by
          simp [fcsStep, hp, hm]
        rw [h2]
      | none =>
        cases hxc : e.CodeStateID with
        | some c =>
          have h2 : dget (fcsStep m e) p = some c := by
            simp [fcsStep, hp, hm, hxc, dget_dset_self]
          rw [h2]
          simp [firstCSP, hxc]
        | none =>
          have h2 : dget (fcsStep m e) p = none := by
            simp [fcsStep, hp, hm, hxc]
          rw [h2]
          simp [firstCSP, hxc]
    · rw [if_neg hp, fcsStep_other hp]

/-- `first_code_states` of a partition is the first concrete
`CodeStateID` among that partition's events. -/
theorem firstCodeStates_filterP (p : Ident) (t : List Event) :
    dget (firstCodeStates t) p = firstCSP (filterP p t) := by
  rw [firstCodeStates, firstCS_aux p t []]
  rfl

/-- The projection of an event the noninterference claim observes: its
identity and the two backfilled fields. -/
def proj3 (e : Event) : Nat × Option Nat × Option Int :=
  (e.EventID, e.CodeStateID, e.Score)

/-- The compile-linking pass does not change the partition subsequences
as seen through `proj3`. -/
theorem link_filterP_proj (p : Ident) : ∀ (prev : List (Ident × Nat))
    (t : List Event),
    (filterP p (linkAux prev t)).map proj3 = (filterP p t).map proj3 := by
  intro prev t
  induction t generalizing prev with
  | nil => rfl
  | cons x rest ih =>
    rw [linkAux]
    by_cases hc : x.EventType = "Compile"
    · rw [if_pos hc, filterP_cons, filterP_cons]
      by_cases hp : identOf x = p
      · rw [if_pos hp, if_pos hp, List.map_cons, List.map_cons, ih]
      · rw [if_neg hp, if_neg hp, ih]
    · rw [if_neg hc]
      by_cases he : x.EventType = "Compile.Error"
      · rw [if_pos he]
        rw [filterP_cons, filterP_cons]
        have hident : identOf
            (match dget prev (identOf x) with
             | some v => { x with ParentEventIDAttr := some (v : Int) }
             | none => { x with ParentEventIDAttr := some (-1 : Int) }) =
            identOf x := by
          cases dget prev (identOf x) <;> rfl
        have hproj : proj3
            (match dget prev (identOf x) with
             | some v => { x with ParentEventIDAttr := some (v : Int) }
             | none => { x with ParentEventIDAttr := some (-1 : Int) }) =
            proj3 x := by
          cases dget prev (identOf x) <;> rfl
        by_cases hp : identOf x = p
        · rw [if_pos (hident.trans hp), if_pos hp, List.map_cons,
            List.map_cons, ih, hproj]
        · rw [if_neg (fun hcon => hp (hident.symm.trans hcon)), if_neg hp, ih]
      · rw [if_neg he, filterP_cons, filterP_cons]
        by_cases hp : identOf x = p
        · rw [if_pos hp, if_pos hp, List.map_cons, List.map_cons, ih]
        · rw [if_neg hp, if_neg hp, ih]

/-- The carry-forward recurrence on one partition's (EventID,
CodeStateID, Score) triples. -/
def pureCarry (firstV : Nat) : Option Nat → Option Int →
    List (Nat × Option Nat × Option Int) →
    List (Nat × Option Nat × Option Int)
  | _, _, [] => []
  | curCS, curSc, x :: rest =>
    let sc2 : Int :=
      match x.2.2 with
      | none => curSc.getD 0
      | some s => s
    let c2 : Nat :=
      match x.2.1 with
      | none => curCS.getD firstV
      | some c => c
    (x.1, some c2, some sc2) :: pureCarry firstV (some c2) (some sc2) rest

/-- Normal form of the carry-forward pass on one partition: what it
does to partition `p` is `pureCarry` of `p`'s own subsequence, seeded
from the per-partition entries of the state dictionaries. -/
theorem carry_filterP_norm (p : Ident) (fcs : List (Ident × Nat)) :
    ∀ (t : List Event) (order : Nat) (cs : List (Ident × Nat))
      (ss : List (Ident × Int)),
    (filterP p (carryAux fcs order cs ss t)).map proj3 =
      pureCarry ((dget fcs p).getD 0) (dget cs p) (dget ss p)
        ((filterP p t).map proj3) := by
  intro t
  induction t with
  | nil => intro order cs ss; rfl
  | cons x rest ih =>
    intro order cs ss
    rw [carryAux, filterP_cons, filterP_cons]
    have hident : ∀ (o : Option Nat) (sc : Option Int) (ord : Option Nat),
        identOf { x with CodeStateID := o, Score := sc, Order := ord } =
          identOf x := fun _ _ _ => rfl
    by_cases hp : identOf x = p
    · cases hs : x.Score <;> cases hxc : x.CodeStateID <;>
        simp only [hs, hxc] <;>
        rw [if_pos ((hident _ _ _).trans hp), if_pos hp, List.map_cons,
          List.map_cons, ih, hp, dget_dset_self, dget_dset_self] <;>
        simp [pureCarry, proj3, hxc, hs]
    · cases hs : x.Score <;> cases hxc : x.CodeStateID <;>
        simp only [hs, hxc] <;>
        rw [if_neg (fun hcon => hp ((hident _ _ _).symm.trans hcon)),
          if_neg hp, ih,
          dget_dset_ne _ _ (fun hc : p = identOf x => hp hc.symm),
          dget_dset_ne _ _ (fun hc : p = identOf x => hp hc.symm)]

/-- Normal form of the whole finalization pipeline on one partition:
the `(EventID, CodeStateID, Score)` triples of partition `p`'s events
after `finalize_table` are a function of `p`'s own input subsequence
alone. -/
theorem finalize_filterP_norm (p : Ident) (t : List Event) :
    (filterP p (finalize_table t)).map proj3 =
      pureCarry ((firstCSP (remapRec (sortTable (filterP p t)))).getD 0)
        none none ((remapRec (sortTable (filterP p t))).map proj3) := by
  have hremap : filterP p (remapUploads (sortTable t)) =
      remapRec (sortTable (filterP p t)) := by
    rw [remapUploads_eq_remapRec, filterP_remapRec, filterP_sortTable]
  rw [finalize_table_eq, carry_filterP_norm, linkCompiles, link_filterP_proj,
    hremap, firstCodeStates_filterP, hremap]
  rfl

/-- C6: two-run noninterference of the backfill across partitions —
for any two input tables that agree on partition `p`'s subsequence
(however the other partitions' events are removed, reordered, or
changed), finalization gives `p`'s events identical backfilled
`CodeStateID` and `Score` values (observed here as the sequence of
`(EventID, CodeStateID, Score)` triples of `p`'s rows). -/
theorem C6_partition_noninterference (p : Ident) (t1 t2 : List Event)
    (h : filterP p t1 = filterP p t2) :
    (filterP p (finalize_table t1)).map proj3 =
      (filterP p (finalize_table t2)).map proj3 := by
  rw [finalize_filterP_norm, finalize_filterP_norm, h]

/-- An event of a different partition, used to perturb a run. -/
def c6OtherEvent : Event :=
  { EventID := 99, ClientTimestamp := "0", ServerTimestamp := "0",
    SubjectID := "OTHER", AssignmentID := "a9", EventType := "File.Edit",
    CodeStateID := some 42, Score := some 5 }

theorem C6_partition_noninterference_witness :
    (filterP ("s1", "a1") (finalize_table c2Input)).map proj3 =
      (filterP ("s1", "a1")
        (finalize_table (c2Input ++ [c6OtherEvent]))).map proj3 :=
  C6_partition_noninterference ("s1", "a1") c2Input
    (c2Input ++ [c6OtherEvent]) (by decide)

/-- `line_finder.findall` — all `line (\d+)` matches of the body, used
to extract a source location from compiler error text. -/
@[irreducible] def findLineNums : List Char → List String
  | [] => []
  | 'l' :: 'i' :: 'n' :: 'e' :: ' ' :: rest =>
    let ds := rest.takeWhile (fun ch => ch.isDigit)
    if ds.isEmpty then findLineNums ('i' :: 'n' :: 'e' :: ' ' :: rest)
    else String.mk ds :: findLineNums (rest.drop ds.length)
  | _ :: cs => findLineNums cs
termination_by l => l.length
decreasing_by
  · simp only [List.length_cons]
    omega
  · simp only [List.length_cons, List.length_drop]
    omega
  · simp only [List.length_cons]
    omega

/-- The canonical event descriptor produced by the classifier: the
Python side returns either a bare `EventType` string or a dictionary;
`Score` is a named `Event.__init__` parameter, every other key of the
dictionary is an optional column. -/
structure PSDesc where
  EventType : String
  Score : Option Int := none
  extras : List (String × Val) := []
deriving DecidableEq

/-- `map_blockpy_event_to_progsnap` (lines 607-684): classify a raw
`(event, action, body)` record into an event descriptor, `none` for the
deliberately ignored categories, or the `UnclassifiedEventType`
exception for anything not in the table. -/
def mapBlockpy (event action body : String) : Except PyError (Option PSDesc) :=
  if event = "code" ∧ action = "set" then
    .ok (some { EventType := "File.Edit",
                extras := [("EditType", .s "GenericEdit")] })
  else if event = "engine" ∧ action = "on_run" then
    .ok (some { EventType := "Compile" })
  else if event = "editor" then
    if action = "load" then .ok (some { EventType := "Session.Start" })
    else if action = "reset" then
      .ok (some { EventType := "File.Edit",
                  extras := [("EditType", .s "Reset")] })
    else if action = "blocks" then .ok (some { EventType := "X-View.Blocks" })
    else if action = "text" then .ok (some { EventType := "X-View.Text" })
    else if action = "split" then .ok (some { EventType := "X-View.Split" })
    else if action = "instructor" then
      .ok (some { EventType := "X-View.Settings" })
    else if action = "history" then .ok (some { EventType := "X-View.History" })
    else if action = "trace" then .ok (some { EventType := "X-View.Trace" })
    else if action = "upload" then .ok (some { EventType := "X-File.Upload" })
    else if action = "download" then
      .ok (some { EventType := "X-File.Download" })
    else if action = "changeIP" ∨ action = "change" then
      .ok (some { EventType := "X-Session.Move" })
    else if action = "import" then
      .ok (some { EventType := "X-Dataset.Import" })
    else if action = "run" ∨ action = "on_run" then .ok none
    else .error (.unclassifiedEventType event action body)
  else if event = "trace_step" then .ok (some { EventType := "X-View.Step" })
  else if event = "feedback" then
    if action.toLower.startsWith "analyzer|" then
      .ok (some { EventType := "Intervention",
                  extras := [("InterventionType", .s "Analyzer"),
                             ("InterventionMessage",
                              .s (action ++ "|" ++ body))] })
    else if action.toLower = "editor error" ∨
        action.toLower.startsWith "syntax|" then
      .ok (some { EventType := "Compile.Error",
                  extras := [("CompileMessageType", .s action),
                             ("CompileMessageData", .s body),
                             ("SourceLocation",
                              .s (((findLineNums body.data).head?).getD ""))] })
    else if action.toLower.startsWith "complete|" then
      .ok (some { EventType := "Run.Program", Score := some 1,
                  extras := [("ExecutionResult", .s "Success")] })
    else if action.toLower.startsWith "runtime|" ∨
        action.toLower = "runtime" then
      .ok (some { EventType := "Run.Program",
                  extras := [("ExecutionResult", .s "Error"),
                             ("ProgramErrorOutput",
                              .s (action ++ "|" ++ body))] })
    else if action.toLower = "internal error" then
      .ok (some { EventType := "Run.Program",
                  extras := [("ExecutionResult", .s "SystemError"),
                             ("ProgramErrorOutput",
                              .s (action ++ "|" ++ body))] })
    else
      .ok (some { EventType := "Intervention",
                  extras := [("InterventionType", .s "Feedback"),
                             ("InterventionMessage",
                              .s (action ++ "|" ++ body))] })
  else if event = "engine" then .ok none
  else if event = "instructor" then .ok none
  else if event = "trace" then .ok none
  else if event = "worked_examples" then .ok none
  else .error (.unclassifiedEventType event action body)

/-- The editor actions enumerated by the classification table. -/
def editorActions : List String :=
  ["load", "reset", "blocks", "text", "split", "instructor", "history",
   "trace", "upload", "download", "changeIP", "change", "import", "run",
   "on_run"]

/-- Modelled from the spec's enumeration of the classification table
(sections 4.1 and 6): the `(event, action)` pairs the table covers,
including the deliberately ignored categories (`engine` triggers,
`instructor` edits, `trace` activation, `worked_examples`) and the
per-action sub-classification of `feedback` whose final case is a
catch-all. -/
def coveredPair (event action : String) : Bool :=
  (event == "code" && action == "set") || event == "engine" ||
    (event == "editor" && editorActions.contains action) ||
    event == "trace_step" || event == "feedback" || event == "instructor" ||
    event == "trace" || event == "worked_examples"

theorem ok_not_error {v : Option PSDesc} :
    (∃ x, (Except.ok v : Except PyError (Option PSDesc)) = .error x) ↔
      False := by
  simp

theorem err_is_error {y : PyError} :
    (∃ x, (Except.error y : Except PyError (Option PSDesc)) = .error x) ↔
      True := by
  simp

theorem coveredPair_iff (e a : String) :
    coveredPair e a = true ↔
      ((e = "code" ∧ a = "set") ∨ e = "engine" ∨
        (e = "editor" ∧ a ∈ editorActions) ∨ e = "trace_step" ∨
        e = "feedback" ∨ e = "instructor" ∨ e = "trace" ∨
        e = "worked_examples") := by
  unfold coveredPair
  simp [List.contains_iff_exists_mem_beq, beq_iff_eq]
  tauto

set_option maxHeartbeats 1000000 in
/-- C3: classification is total over the covered pairs — it raises
`UnclassifiedEventType` exactly on the `(event, action)` pairs outside
the fixed table and the deliberately ignored categories, and yields an
event descriptor or an explicit `none` on every covered pair. -/
theorem C3_unclassified_event_type (e a b : String) :
    (∃ x, mapBlockpy e a b = .error x) ↔ coveredPair e a = false := by
  unfold mapBlockpy
  by_cases h1 : e = "code" ∧ a = "set"
  · obtain ⟨rfl, rfl⟩ := h1
    rw [if_pos ⟨rfl, rfl⟩, ok_not_error, false_iff]
    simp [show coveredPair "code" "set" = true from by decide]
  · rw [if_neg h1]
    by_cases h2 : e = "engine" ∧ a = "on_run"
    · obtain ⟨rfl, rfl⟩ := h2
      rw [if_pos ⟨rfl, rfl⟩, ok_not_error, false_iff]
      simp [show coveredPair "engine" "on_run" = true from by decide]
    · rw [if_neg h2]
      by_cases h3 : e = "editor"
      · subst h3
        rw [if_pos rfl]
        by_cases ha1 : a = "load"
        · subst ha1
          rw [if_pos rfl, ok_not_error, false_iff]
          simp [show coveredPair "editor" "load" = true from by decide]
        · rw [if_neg ha1]
          by_cases ha2 : a = "reset"
          · subst ha2
            rw [if_pos rfl, ok_not_error, false_iff]
            simp [show coveredPair "editor" "reset" = true from by decide]
          · rw [if_neg ha2]
            by_cases ha3 : a = "blocks"
            · subst ha3
              rw [if_pos rfl, ok_not_error, false_iff]
              simp [show coveredPair "editor" "blocks" = true from by decide]
            · rw [if_neg ha3]
              by_cases ha4 : a = "text"
              · subst ha4
                rw [if_pos rfl, ok_not_error, false_iff]
                simp [show coveredPair "editor" "text" = true from by decide]
              · rw [if_neg ha4]
                by_cases ha5 : a = "split"
                · subst ha5
                  rw [if_pos rfl, ok_not_error, false_iff]
                  simp [show coveredPair "editor" "split" = true from by decide]
                · rw [if_neg ha5]
                  by_cases ha6 : a = "instructor"
                  · subst ha6
                    rw [if_pos rfl, ok_not_error, false_iff]
                    simp [show coveredPair "editor" "instructor" = true from
                      by decide]
                  · rw [if_neg ha6]
                    by_cases ha7 : a = "history"
                    · subst ha7
                      rw [if_pos rfl, ok_not_error, false_iff]
                      simp [show coveredPair "editor" "history" = true from
                        by decide]
                    · rw [if_neg ha7]
                      by_cases ha8 : a = "trace"
                      · subst ha8
                        rw [if_pos rfl, ok_not_error, false_iff]
                        simp [show coveredPair "editor" "trace" = true from
                          by decide]
                      · rw [if_neg ha8]
                        by_cases ha9 : a = "upload"
                        · subst ha9
                          rw [if_pos rfl, ok_not_error, false_iff]
                          simp [show coveredPair "editor" "upload" = true from
                            by decide]
                        · rw [if_neg ha9]
                          by_cases ha10 : a = "download"
                          · subst ha10
                            rw [if_pos rfl, ok_not_error, false_iff]
                            simp [show coveredPair "editor" "download" = true
                              from by decide]
                          · rw [if_neg ha10]
                            by_cases ha11 : a = "changeIP" ∨ a = "change"
                            · rw [if_pos ha11, ok_not_error, false_iff]
                              rcases ha11 with rfl | rfl
                              · simp [show coveredPair "editor" "changeIP" =
                                  true from by decide]
                              · simp [show coveredPair "editor" "change" =
                                  true from by decide]
                            · rw [if_neg ha11]
                              by_cases ha12 : a = "import"
                              · subst ha12
                                rw [if_pos rfl, ok_not_error, false_iff]
                                simp [show coveredPair "editor" "import" =
                                  true from by decide]
                              · rw [if_neg ha12]
                                by_cases ha13 : a = "run" ∨ a = "on_run"
                                · rw [if_pos ha13, ok_not_error, false_iff]
                                  rcases ha13 with rfl | rfl
                                  · simp [show coveredPair "editor" "run" =
                                      true from by decide]
                                  · simp [show coveredPair "editor" "on_run" =
                                      true from by decide]
                                · rw [if_neg ha13, err_is_error, true_iff,
                                    ← Bool.not_eq_true]
                                  intro hc
                                  rcases (coveredPair_iff _ _).mp hc with
                                    ⟨he, _⟩ | he | ⟨_, hmem⟩ | he | he | he |
                                    he | he
                                  · exact absurd he (by decide)
                                  · exact absurd he (by decide)
                                  · obtain ⟨hb1, hb2⟩ := not_or.mp ha11
                                    obtain ⟨hb3, hb4⟩ := not_or.mp ha13
                                    simp only [editorActions, List.mem_cons,
                                      List.not_mem_nil, or_false] at hmem
                                    rcases hmem with rfl|rfl|rfl|rfl|rfl|rfl|
                                      rfl|rfl|rfl|rfl|rfl|rfl|rfl|rfl|rfl
                                    · exact ha1 rfl
                                    · exact ha2 rfl
                                    · exact ha3 rfl
                                    · exact ha4 rfl
                                    · exact ha5 rfl
                                    · exact ha6 rfl
                                    · exact ha7 rfl
                                    · exact ha8 rfl
                                    · exact ha9 rfl
                                    · exact ha10 rfl
                                    · exact hb1 rfl
                                    · exact hb2 rfl
                                    · exact ha12 rfl
                                    · exact hb3 rfl
                                    · exact hb4 rfl
                                  · exact absurd he (by decide)
                                  · exact absurd he (by decide)
                                  · exact absurd he (by decide)
                                  · exact absurd he (by decide)
                                  · exact absurd he (by decide)
      · rw [if_neg h3]
        by_cases h4 : e = "trace_step"
        · subst h4
          rw [if_pos rfl, ok_not_error, false_iff]
          simp [show coveredPair "trace_step" a = true from
            (coveredPair_iff _ _).mpr (by tauto)]
        · rw [if_neg h4]
          by_cases h5 : e = "feedback"
          · subst h5
            rw [if_pos rfl]
            have hcov : coveredPair "feedback" a = true :=
              (coveredPair_iff _ _).mpr (by tauto)
            split_ifs <;> simp [hcov]
          · rw [if_neg h5]
            by_cases h6 : e = "engine"
            · subst h6
              rw [if_pos rfl, ok_not_error, false_iff]
              simp [show coveredPair "engine" a = true from
                (coveredPair_iff _ _).mpr (by tauto)]
            · rw [if_neg h6]
              by_cases h7 : e = "instructor"
              · subst h7
                rw [if_pos rfl, ok_not_error, false_iff]
                simp [show coveredPair "instructor" a = true from
                  (coveredPair_iff _ _).mpr (by tauto)]
              · rw [if_neg h7]
                by_cases h8 : e = "trace"
                · subst h8
                  rw [if_pos rfl, ok_not_error, false_iff]
                  simp [show coveredPair "trace" a = true from
                    (coveredPair_iff _ _).mpr (by tauto)]
                · rw [if_neg h8]
                  by_cases h9 : e = "worked_examples"
                  · subst h9
                    rw [if_pos rfl, ok_not_error, false_iff]
                    simp [show coveredPair "worked_examples" a = true from
                      (coveredPair_iff _ _).mpr (by tauto)]
                  · rw [if_neg h9, err_is_error, true_iff,
                      ← Bool.not_eq_true]
                    intro hc
                    rcases (coveredPair_iff _ _).mp hc with
                      hcase | he | ⟨he, _⟩ | he | he | he | he | he
                    · exact h1 hcase
                    · exact h6 he
                    · exact h3 he
                    · exact h4 he
                    · exact h5 he
                    · exact h7 he
                    · exact h8 he
                    · exact h9 he

/-- Decimal digits to a natural number. -/
def digitsToNat (cs : List Char) : Nat :=
  cs.foldl (fun acc c => acc * 10 + (c.toNat - 48)) 0

/-- A model of Python's `int(...)` on strings: optional surrounding
whitespace, an optional sign, then at least one decimal digit;
anything else raises `ValueError`. -/
def pyInt (s : String) : Option Int :=
  let cs := s.data.dropWhile (fun c => c.isWhitespace)
  let cs := (cs.reverse.dropWhile (fun c => c.isWhitespace)).reverse
  match cs with
  | '-' :: ds =>
    if ds ≠ [] ∧ ds.all Char.isDigit then some (-(digitsToNat ds : Int))
    else none
  | '+' :: ds =>
    if ds ≠ [] ∧ ds.all Char.isDigit then some (digitsToNat ds : Int)
    else none
  | ds =>
    if ds ≠ [] ∧ ds.all Char.isDigit then some (digitsToNat ds : Int)
    else none

/-- `blockpy_timestamp_to_iso8601` (lines 489-501):
`datetime.fromtimestamp(int(timestamp)).isoformat()`.  The
wall-clock rendering of the epoch value depends on the host timezone
and is irrelevant to every claim, so it is abstracted as the `fmt`
parameter; `int(...)` on a non-numeric string raises `ValueError`. -/
def blockpy_timestamp_to_iso8601 (fmt : Int → String) (timestamp : String) :
    Except PyError String :=
  match pyInt timestamp with
  | some n => .ok (fmt n)
  | none => .error (.valueError timestamp)

/-- `chomp_iso_time_decimal` (lines 598-603): join the
whitespace-separated pieces with `T` and truncate at the first `.`. -/
def chomp_iso_time_decimal (a_time : String) : String :=
  let parts := (a_time.split (fun c => c.isWhitespace)).filter
    (fun s => decide (s ≠ ""))
  let t := "T".intercalate parts
  String.mk (t.data.takeWhile (fun c => decide (c ≠ '.')))

/-- One raw blockpy log record (a JSON object): `category`/`label` are
preferred over `event`/`action` when present; `course_id` defaults to
the integer 0. -/
structure RawRecord where
  category : Option String := none
  event : String := ""
  label : Option String := none
  action : String := ""
  timestamp : String := ""
  body : String := ""
  date_created : String := ""
  user_id : String := ""
  assignment_id : String := ""
  course_id : Option Val := none
deriving DecidableEq

/-- The mutable state a `log_blockpy_event` call touches: the
`ProgSnap2` instance's code-state store and main table, and the
`Event.MAX_EVENT_ID` class counter. -/
structure ProgState where
  store : Store := Store.init
  main_table : List Event := []
  MAX_EVENT_ID : Nat := 0
deriving DecidableEq

def recEvent (r : RawRecord) : String := r.category.getD r.event

def recAction (r : RawRecord) : String := r.label.getD r.action

/-- `log_blockpy_event` (lines 686-723): drop the record (returning its
`(event, action)` pair) when `timestamp` is empty or the literal
string `"None"`; otherwise parse the timestamp (`ValueError` on
failure), classify (`UnclassifiedEventType` on a gap), return the pair
without logging for ignored records, and otherwise register a code
state for `File.Edit` events and append the new `Event`. -/
def log_blockpy_event (fmt : Int → String) (ps : ProgState) (r : RawRecord) :
    Except PyError ((String × String) × ProgState) :=
  let event := recEvent r
  let action := recAction r
  if r.timestamp = "" ∨ r.timestamp = "None" then .ok ((event, action), ps)
  else
    match blockpy_timestamp_to_iso8601 fmt r.timestamp with
    | .error err => .error err
    | .ok ClientTimestamp =>
      let ServerTimestamp := chomp_iso_time_decimal r.date_created
      let CourseID := r.course_id.getD (.n 0)
      match mapBlockpy event action r.body with
      | .error err => .error err
      | .ok none => .ok ((event, action), ps)
      | .ok (some desc) =>
        let csr : Option Nat × Store :=
          if desc.EventType = "File.Edit" then
            let h := hash_code_directory ps.store (.str r.body)
            (some h.1, h.2)
          else (none, ps.store)
        let ev : Event :=
          { EventID := ps.MAX_EVENT_ID,
            ClientTimestamp := ClientTimestamp,
            ServerTimestamp := ServerTimestamp,
            SubjectID := r.user_id,
            AssignmentID := r.assignment_id,
            EventType := desc.EventType,
            CodeStateID := csr.1,
            Score := desc.Score,
            extras := [("CourseID", CourseID), ("ParentEventID", .s "")] ++
              desc.extras }
        .ok ((event, action),
          { store := csr.2, main_table := ps.main_table ++ [ev],
            MAX_EVENT_ID := ps.MAX_EVENT_ID + 1 })

/-- C7, amended: the mapper drops a record — creating no event and
registering no code state, while still returning the `(event, action)`
pair for tallying — when its `timestamp` is empty or the literal
sentinel `"None"` (capital `N`, the `str()` of Python's `None`), NOT
the lowercase `"none"` of the claim. -/
theorem C7_timestamp_sentinel (fmt : Int → String) (ps : ProgState)
    (r : RawRecord) (h : r.timestamp = "" ∨ r.timestamp = "None") :
    log_blockpy_event fmt ps r = .ok ((recEvent r, recAction r), ps) := by
  unfold log_blockpy_event
  rw [if_pos h]

/-- A well-formed record except that its timestamp is the lowercase
string `"none"`. -/
def c7Record : RawRecord :=
  { event := "code", action := "set", timestamp := "none",
    body := "print(1)", date_created := "2018-01-01 00:00:00.5",
    user_id := "s1", assignment_id := "a1" }

/-- A concrete timestamp renderer for closed evaluations. -/
def constFmt : Int → String := fun _ => "1970-01-01T00:00:00"

/-- C7, counterexample: a record whose timestamp is the lowercase
sentinel `"none"` is NOT dropped-with-pair — the code only tests for
`"None"`, so `int("none")` is attempted and the call fails with
`ValueError` instead of returning the `(event, action)` pair. -/
theorem C7_lowercase_none_not_dropped :
    log_blockpy_event constFmt {} c7Record =
      .error (.valueError "none") := by
  rfl

theorem C7_timestamp_sentinel_witness :
    ((("" : String) = "" ∨ ("" : String) = "None") ∧
      log_blockpy_event constFmt {}
          { c7Record with timestamp := "" } =
        .ok ((recEvent { c7Record with timestamp := "" },
              recAction { c7Record with timestamp := "" }), {})) :=
  ⟨Or.inl rfl,
   C7_timestamp_sentinel constFmt {} { c7Record with timestamp := "" }
     (Or.inl rfl)⟩

/-- `Event.get_parameter_order` (lines 177-196): columns in
`ARBITRARY_COLUMN_ORDER` sort by their index, anything else sorts
after them, ties broken by the column name. -/
def paramKey (parameter : String) : Nat × String :=
  if parameter ∈ ARBITRARY_COLUMN_ORDER then
    (ARBITRARY_COLUMN_ORDER.indexOf parameter, parameter)
  else (ARBITRARY_COLUMN_ORDER.length, parameter)

def paramLe (x y : String) : Prop :=
  (paramKey x).1 < (paramKey y).1 ∨
    ((paramKey x).1 = (paramKey y).1 ∧
      charsLe (paramKey x).2.data (paramKey y).2.data = true)

instance : DecidableRel paramLe := fun x y => by
  unfold paramLe
  infer_instance

def pairLe (x y : String × Val) : Prop := paramLe x.1 y.1

instance : DecidableRel pairLe := fun x y => by
  unfold pairLe
  infer_instance

/-- Python `dict.update` with one binding: replace the value if the key
is present, else append the binding. -/
def dictUpdate (m : List (String × Val)) (kv : String × Val) :
    List (String × Val) :=
  if m.any (fun old => old.1 == kv.1) then
    m.map (fun old => if old.1 == kv.1 then kv else old)
  else m ++ [kv]

/-- The `required_columns` comprehension of `Event.finalize`
(lines 135-137): the columns of `ARBITRARY_COLUMN_ORDER` present as
attributes on the event object.  `__init__` always sets `EventID`,
`Order`, `SubjectID`, `AssignmentID`, `EventType`, `CodeStateID`,
`ClientTimestamp`, `Score`, `ServerTimestamp` and `ToolInstances`;
`ParentEventID` exists as an attribute only after the Compile-linking
pass set it; `CourseID` and the per-type columns are keyword arguments,
never attributes. -/
def requiredColumns (e : Event) : List (String × Val) :=
  [("EventID", .n (e.EventID : Int)),
   ("Order",
    match e.Order with
    | some o => Val.n (o : Int)
    | none => Val.null),
   ("SubjectID", .s e.SubjectID),
   ("AssignmentID", .s e.AssignmentID),
   ("EventType", .s e.EventType)] ++
  [("CodeStateID",
    match e.CodeStateID with
    | some c => Val.n (c : Int)
    | none => Val.null)] ++
  (match e.ParentEventIDAttr with
   | some v => [("ParentEventID", Val.n v)]
   | none => []) ++
  [("ClientTimestamp", .s e.ClientTimestamp),
   ("Score",
    match e.Score with
    | some sc => Val.n sc
    | none => Val.null),
   ("ServerTimestamp", .s e.ServerTimestamp),
   ("ToolInstances", .s BLOCKPY_INSTANCE)]

/-- `Event.finalize` (lines 121-142): start from the defaults for all
observed optional parameters, overlay this event's own optional
parameters, overlay the present required columns, sort by
`get_parameter_order`, and emit the values. -/
def Event.finalize (e : Event) (defaults : List (String × Val)) : List Val :=
  let parameter_values := e.extras.foldl dictUpdate defaults
  let parameter_values := (requiredColumns e).foldl dictUpdate parameter_values
  (parameter_values.insertionSort pairLe).map (fun kv => kv.2)

/-- `Event.distill_parameters` (lines 144-162): the set of optional
parameter names observed across all events. -/
def distill_parameters (events : List Event) : List String :=
  events.foldl
    (fun acc e =>
      acc ++ ((e.extras.map Prod.fst).filter (fun k => decide (k ∉ acc))))
    []

/-- `ProgSnap2.export_main_table` (lines 265-283): finalize the table,
distill the optional parameters, and write the header — which is ONLY
`main_table_header` (the fixed 20 columns) sorted by
`get_parameter_order`; the observed optional columns are NOT appended
(unlike the vpl converter's `header = self.main_table_header +
list(optionals.keys())`) — followed by one `Event.finalize` row per
event. -/
def export_main_table (t : List Event) :
    List String × List (List Val) :=
  let table := finalize_table t
  let optionals := (distill_parameters table).map (fun p => (p, Val.s ""))
  (ARBITRARY_COLUMN_ORDER.insertionSort paramLe,
   table.map (fun e => e.finalize optionals))

/-- A log containing a single `Session.Start`-producing record. -/
def c8Record : RawRecord :=
  { event := "editor", action := "load", timestamp := "1",
    body := "", date_created := "2018-01-01 00:00:00.5",
    user_id := "s1", assignment_id := "a1" }

/-- The main table after mapping `c8Record` alone. -/
def c8Table : List Event :=
  match log_blockpy_event constFmt {} c8Record with
  | .ok pr => pr.2.main_table
  | .error _ => []

/-- C8: on a run whose only event is a `Session.Start` (observed
optional columns: just `CourseID` and `ParentEventID`), the exported
header has the full 20 fixed columns but the data row has only 12
cells (the 10 always-present attributes plus the 2 observed optional
columns) — the blockpy `export_main_table` never appends observed
optional columns to the header and rows omit fixed columns that were
never observed, so header and rows misalign. -/
theorem C8_export_header_row_mismatch :
    (export_main_table c8Table).1.length = 20 ∧
      (export_main_table c8Table).2.map List.length = [12] ∧
      (12 : Nat) ≠ 20 := by
  decide

end PS2
